import Mathlib

/-!
# Verification of the Loom core (dependency resolver, version algebra,
# source cache, build cache)

Shallow embedding of the C++ sources of Loom into Lean 4, together with
proofs and refutations of the specified properties.  Each definition
mirrors one C++ function or data structure; the file/line of the source
is given in the doc comment.  C++ `std::string` is modelled as Lean
`String` (byte-wise comparison is modelled explicitly, see `strLtB`),
machine integers as `Int`/`Nat` with explicit range conditions, and
`Result<T>` as `Except LoomError T`.
-/

namespace Loom

/-- Error codes of `LoomError` (include/loom/error.hpp). -/
inductive ECode where
  | Io | Parse | Version | Dependency | Config | Manifest | Checksum
  | Network | NotFound | Duplicate | Cycle | InvalidArg
  deriving DecidableEq, Repr

/-- `LoomError` (include/loom/error.hpp).  Only the machine-readable
`code` is retained; the `message`, `hint`, `file`, `line` fields carry
no verified property and are dropped so that error values stay
comparable. -/
structure LoomError where
  code : ECode
  deriving DecidableEq, Repr

/-- `Result<T>` (include/loom/result.hpp): success payload or error. -/
abbrev LoomResult (α : Type) := Except LoomError α

/-- The error code of a `LoomResult`, `none` on success. -/
def errCode {α : Type} : LoomResult α → Option ECode
  | .ok _ => none
  | .error e => some e.code

-- ---------------------------------------------------------------------------
-- Byte-wise string ordering (C++ `std::string::operator<`)
-- ---------------------------------------------------------------------------

/-- Strict lexicographic comparison of character lists, mirroring C++
`std::string::operator<` (byte-wise; code points agree with bytes on
ASCII data, and UTF-8 byte order agrees with code-point order). -/
def strLtB : List Char → List Char → Bool
  | [], [] => false
  | [], _ :: _ => true
  | _ :: _, [] => false
  | x :: xs, y :: ys =>
      if x.toNat < y.toNat then true
      else if y.toNat < x.toNat then false
      else strLtB xs ys

theorem strLtB_irrefl (a : List Char) : strLtB a a = false := by
  induction a with
  | nil => rfl
  | cons x xs ih => simp [strLtB, ih]

theorem strLtB_asymm {a b : List Char} (h : strLtB a b = true) :
    strLtB b a = false := by
  induction a generalizing b with
  | nil =>
    cases b with
    | nil => simp [strLtB] at h
    | cons y ys => simp [strLtB]
  | cons x xs ih =>
    cases b with
    | nil => simp [strLtB] at h
    | cons y ys =>
      by_cases hxy : x.toNat < y.toNat
      · simp [strLtB, hxy, Nat.lt_asymm hxy]
      · by_cases hyx : y.toNat < x.toNat
        · simp [strLtB, hxy, hyx] at h
        · simp [strLtB, hxy, hyx] at h ⊢
          exact ih h

theorem strLtB_eq_of_not_lt {a b : List Char}
    (h₁ : strLtB a b = false) (h₂ : strLtB b a = false) : a = b := by
  induction a generalizing b with
  | nil =>
    cases b with
    | nil => rfl
    | cons y ys => simp [strLtB] at h₁
  | cons x xs ih =>
    cases b with
    | nil => simp [strLtB] at h₂
    | cons y ys =>
      by_cases hxy : x.toNat < y.toNat
      · simp [strLtB, hxy] at h₁
      · by_cases hyx : y.toNat < x.toNat
        · simp [strLtB, hyx, Nat.lt_asymm hyx] at h₂
        · simp [strLtB, hxy, hyx] at h₁ h₂
          have hx : x = y := by
            have hn : x.toNat = y.toNat :=
              Nat.le_antisymm (Nat.le_of_not_lt hyx) (Nat.le_of_not_lt hxy)
            apply Char.ext
            apply UInt32.ext
            simpa [Char.toNat, UInt32.toNat] using hn
          rw [hx, ih h₁ h₂]

theorem strLtB_trans {a b c : List Char}
    (h₁ : strLtB a b = true) (h₂ : strLtB b c = true) : strLtB a c = true := by
  induction a generalizing b c with
  | nil =>
    cases b with
    | nil => simp [strLtB] at h₁
    | cons y ys =>
      cases c with
      | nil => simp [strLtB] at h₂
      | cons z zs => simp [strLtB]
  | cons x xs ih =>
    cases b with
    | nil => simp [strLtB] at h₁
    | cons y ys =>
      cases c with
      | nil => simp [strLtB] at h₂
      | cons z zs =>
        by_cases hxy : x.toNat < y.toNat
        · by_cases hyz : y.toNat < z.toNat
          · simp [strLtB, Nat.lt_trans hxy hyz]
          · by_cases hzy : z.toNat < y.toNat
            · simp [strLtB, hyz, hzy] at h₂
            · have : y.toNat = z.toNat :=
                Nat.le_antisymm (Nat.le_of_not_lt hzy) (Nat.le_of_not_lt hyz)
              simp [strLtB, this ▸ hxy]
        · by_cases hyx : y.toNat < x.toNat
          · simp [strLtB, hxy, hyx] at h₁
          · have hxyeq : x.toNat = y.toNat :=
              Nat.le_antisymm (Nat.le_of_not_lt hyx) (Nat.le_of_not_lt hxy)
            simp [strLtB, hxy, hyx] at h₁
            by_cases hyz : y.toNat < z.toNat
            · simp [strLtB, hxyeq ▸ hyz]
            · by_cases hzy : z.toNat < y.toNat
              · simp [strLtB, hyz, hzy] at h₂
              · simp [strLtB, hyz, hzy] at h₂
                simp [strLtB, hxyeq ▸ hyz, hxyeq ▸ hzy, ih h₁ h₂]

/-- Trichotomy for the byte-wise comparison. -/
theorem strLtB_trichotomy (a b : List Char) :
    strLtB a b = true ∨ a = b ∨ strLtB b a = true := by
  by_cases h₁ : strLtB a b = true
  · exact Or.inl h₁
  · by_cases h₂ : strLtB b a = true
    · exact Or.inr (Or.inr h₂)
    · exact Or.inr (Or.inl (strLtB_eq_of_not_lt
        (Bool.eq_false_iff.mpr h₁) (Bool.eq_false_iff.mpr h₂)))

-- ---------------------------------------------------------------------------
-- `std::stoi` (used by Version::parse / PartialVersion::parse)
-- ---------------------------------------------------------------------------

/-- C-locale `isspace`, as used by `std::stoi`'s underlying `strtol`. -/
def isSpaceC (c : Char) : Bool :=
  c = ' ' || c = '\t' || c = '\n' || c = '\x0b' || c = '\x0c' || c = '\r'

/-- Numeric value of a run of decimal digits. -/
def digitsVal (ds : List Char) : Nat :=
  ds.foldl (fun a c => a * 10 + (c.toNat - 48)) 0

/-- Model of `std::stoi` on a character list: skip leading whitespace, an
optional sign, then a non-empty run of decimal digits; trailing characters
are ignored.  `none` models a thrown `std::invalid_argument` (no digits)
or `std::out_of_range` (value outside `int`); both are caught by the
`catch (...)` in version.cpp and mapped to the same error. -/
def stoiCore (cs : List Char) : Option Int :=
  let cs₁ := cs.dropWhile isSpaceC
  let (sign, cs₂) : Int × List Char :=
    match cs₁ with
    | '+' :: r => (1, r)
    | '-' :: r => (-1, r)
    | r => (1, r)
  let ds := cs₂.takeWhile Char.isDigit
  if ds.isEmpty then none
  else
    let v : Int := sign * (digitsVal ds : Int)
    if v < -2147483648 ∨ 2147483647 < v then none else some v

/-- Index of the first occurrence of `c`, if any. -/
def findIdx (c : Char) : List Char → Option Nat
  | [] => none
  | x :: xs => if x = c then some 0 else (findIdx c xs).map (· + 1)

/-- `std::string::find(c, start)` (as an `Option` instead of `npos`). -/
def findCharFrom (cs : List Char) (c : Char) (start : Nat) : Option Nat :=
  (findIdx c (cs.drop start)).map (· + start)

-- ---------------------------------------------------------------------------
-- Version (include/loom/version.hpp, src/util/version.cpp)
-- ---------------------------------------------------------------------------

/-- `Version` (include/loom/version.hpp).  `std::string label` is modelled
by its character list. -/
structure Version where
  major : Int := 0
  minor : Int := 0
  micro : Int := 0
  label : List Char := []
  deriving DecidableEq, Repr

/-- `Version::parse` (version.cpp:12-80). -/
def Version.parse (s : String) : LoomResult Version :=
  let cs := s.toList
  if cs.isEmpty then .error ⟨.Version⟩
  else
    match findCharFrom cs '.' 0 with
    | none => .error ⟨.Version⟩
    | some dot1 =>
      match stoiCore (cs.take dot1) with
      | none => .error ⟨.Version⟩
      | some major =>
        match findCharFrom cs '.' (dot1 + 1) with
        | none => .error ⟨.Version⟩
        | some dot2 =>
          match stoiCore ((cs.drop (dot1 + 1)).take (dot2 - (dot1 + 1))) with
          | none => .error ⟨.Version⟩
          | some minor =>
            match findCharFrom cs '-' (dot2 + 1) with
            | some dash =>
              match stoiCore ((cs.drop (dot2 + 1)).take (dash - (dot2 + 1))) with
              | none => .error ⟨.Version⟩
              | some micro =>
                let label := cs.drop (dash + 1)
                if label.isEmpty then .error ⟨.Version⟩
                else if major < 0 ∨ minor < 0 ∨ micro < 0 then .error ⟨.Version⟩
                else .ok ⟨major, minor, micro, label⟩
            | none =>
              match stoiCore (cs.drop (dot2 + 1)) with
              | none => .error ⟨.Version⟩
              | some micro =>
                if major < 0 ∨ minor < 0 ∨ micro < 0 then .error ⟨.Version⟩
                else .ok ⟨major, minor, micro, []⟩

/-- Comparison of prerelease labels, as in the tail of
`Version::operator<` (version.cpp:103-106): a release (empty label) is
greater than any prerelease; two labels otherwise compare byte-wise. -/
def labelLt (a b : List Char) : Bool :=
  if a.isEmpty && !b.isEmpty then false
  else if !a.isEmpty && b.isEmpty then true
  else strLtB a b

/-- `Version::operator<` (version.cpp:99-107). -/
def Version.lt (a b : Version) : Bool :=
  if a.major ≠ b.major then decide (a.major < b.major)
  else if a.minor ≠ b.minor then decide (a.minor < b.minor)
  else if a.micro ≠ b.micro then decide (a.micro < b.micro)
  else labelLt a.label b.label

/-- `Version::operator<=` (version.cpp:109): `!(o < *this)`. -/
def Version.le (a b : Version) : Bool := !(Version.lt b a)

/-- `Version::operator>` (version.cpp:110): `o < *this`. -/
def Version.gt (a b : Version) : Bool := Version.lt b a

/-- `Version::operator>=` (version.cpp:111): `!(*this < o)`. -/
def Version.ge (a b : Version) : Bool := !(Version.lt a b)

-- ---------------------------------------------------------------------------
-- PartialVersion (version.cpp:117-165)
-- ---------------------------------------------------------------------------

/-- `PartialVersion` (include/loom/version.hpp): minor/micro use the
sentinel `-1` for "unset". -/
structure PartialVersion where
  major : Int := 0
  minor : Int := -1
  micro : Int := -1
  deriving DecidableEq, Repr

/-- `PartialVersion::parse` (version.cpp:117-165). -/
def PartialVersion.parse (s : String) : LoomResult PartialVersion :=
  let cs := s.toList
  if cs.isEmpty then .error ⟨.Version⟩
  else
    match findCharFrom cs '.' 0 with
    | none =>
      match stoiCore cs with
      | none => .error ⟨.Version⟩
      | some major => .ok { major := major }
    | some dot1 =>
      match stoiCore (cs.take dot1) with
      | none => .error ⟨.Version⟩
      | some major =>
        match findCharFrom cs '.' (dot1 + 1) with
        | none =>
          match stoiCore (cs.drop (dot1 + 1)) with
          | none => .error ⟨.Version⟩
          | some minor => .ok { major := major, minor := minor }
        | some dot2 =>
          match stoiCore ((cs.drop (dot1 + 1)).take (dot2 - dot1 - 1)),
                stoiCore (cs.drop (dot2 + 1)) with
          | some minor, some micro =>
            .ok { major := major, minor := minor, micro := micro }
          | _, _ => .error ⟨.Version⟩

-- ---------------------------------------------------------------------------
-- VersionConstraint (version.cpp:182-237)
-- ---------------------------------------------------------------------------

/-- `ConstraintOp` (include/loom/version.hpp). -/
inductive ConstraintOp where
  | Exact | Caret | Tilde | GreaterEq | Greater | LessEq | Less
  deriving DecidableEq, Repr

/-- `VersionConstraint` (include/loom/version.hpp). -/
structure VersionConstraint where
  op : ConstraintOp
  version : PartialVersion
  deriving DecidableEq, Repr

/-- Expansion of a partial version to a full one for comparison
(version.cpp:183-191): unset components become 0. -/
def pvExpand (p : PartialVersion) : Version :=
  ⟨p.major, if p.minor ≥ 0 then p.minor else 0, if p.micro ≥ 0 then p.micro else 0, []⟩

/-- `VersionConstraint::matches` (version.cpp:182-237). -/
def VersionConstraint.matches (c : VersionConstraint) (v : Version) : Bool :=
  let req := pvExpand c.version
  match c.op with
  | .Exact =>
      decide (v.major = req.major) && decide (v.minor = req.minor) &&
      decide (v.micro = req.micro) && v.label.isEmpty
  | .Caret =>
      if !v.label.isEmpty then false
      else if Version.lt v req then false
      else if req.major > 0 then decide (v.major = req.major)
      else if req.minor > 0 then decide (v.major = 0) && decide (v.minor = req.minor)
      else decide (v.major = 0) && decide (v.minor = 0) && decide (v.micro = req.micro)
  | .Tilde =>
      if !v.label.isEmpty then false
      else if Version.lt v req then false
      else decide (v.major = req.major) && decide (v.minor = req.minor)
  | .GreaterEq => if !v.label.isEmpty then false else Version.ge v req
  | .Greater => if !v.label.isEmpty then false else Version.gt v req
  | .LessEq => if !v.label.isEmpty then false else Version.le v req
  | .Less => if !v.label.isEmpty then false else Version.lt v req

/-- `VersionReq` (include/loom/version.hpp): conjunction of constraints. -/
structure VersionReq where
  constraints : List VersionConstraint
  deriving DecidableEq, Repr

/-- `VersionReq::matches` (version.cpp:333-336). -/
def VersionReq.matches (r : VersionReq) (v : Version) : Bool :=
  r.constraints.all (fun c => c.matches v)

-- ---------------------------------------------------------------------------
-- Order-theoretic facts about labelLt and Version.lt
-- ---------------------------------------------------------------------------

theorem labelLt_irrefl (a : List Char) : labelLt a a = false := by
  unfold labelLt
  cases h : a.isEmpty <;> simp [h, strLtB_irrefl]

theorem labelLt_asymm {a b : List Char} (h : labelLt a b = true) :
    labelLt b a = false := by
  unfold labelLt at h ⊢
  cases ha : a.isEmpty <;> cases hb : b.isEmpty
  · simp [ha, hb] at h ⊢
    exact strLtB_asymm h
  · simp [ha, hb]
  · simp [ha, hb] at h
  · rw [List.isEmpty_iff] at ha hb
    subst ha; subst hb; simp [strLtB] at h

theorem labelLt_eq_of_not_lt {a b : List Char}
    (h₁ : labelLt a b = false) (h₂ : labelLt b a = false) : a = b := by
  unfold labelLt at h₁ h₂
  cases ha : a.isEmpty <;> cases hb : b.isEmpty <;> simp [ha, hb] at h₁ h₂
  · exact strLtB_eq_of_not_lt h₁ h₂
  · rw [List.isEmpty_iff] at ha hb; rw [ha, hb]

theorem labelLt_trans {a b c : List Char}
    (h₁ : labelLt a b = true) (h₂ : labelLt b c = true) : labelLt a c = true := by
  unfold labelLt at h₁ h₂ ⊢
  cases ha : a.isEmpty <;> cases hb : b.isEmpty <;> cases hc : c.isEmpty <;>
    simp [ha, hb, hc] at h₁ h₂ ⊢
  · exact strLtB_trans h₁ h₂
  · rw [List.isEmpty_iff] at hb hc; subst hb; subst hc; simp [strLtB] at h₂

/-- Decomposition of `Version::operator<` into the lexicographic
disjunction it implements. -/
theorem Version.lt_iff (a b : Version) :
    Version.lt a b = true ↔
      a.major < b.major ∨ (a.major = b.major ∧
        (a.minor < b.minor ∨ (a.minor = b.minor ∧
          (a.micro < b.micro ∨ (a.micro = b.micro ∧
            labelLt a.label b.label = true))))) := by
  unfold Version.lt
  split_ifs with h₁ h₂ h₃ <;> simp_all

theorem Version.lt_asymm {a b : Version} (h : Version.lt a b = true) :
    Version.lt b a = false := by
  rw [Version.lt_iff] at h
  rw [Bool.eq_false_iff]
  intro hba
  rw [Version.lt_iff] at hba
  rcases h with h | ⟨e₁, h⟩
  · rcases hba with h' | ⟨e₁', _⟩ <;> omega
  · rcases hba with h' | ⟨e₁', hba⟩
    · omega
    rcases h with h | ⟨e₂, h⟩
    · rcases hba with h' | ⟨e₂', _⟩ <;> omega
    · rcases hba with h' | ⟨e₂', hba⟩
      · omega
      rcases h with h | ⟨e₃, h⟩
      · rcases hba with h' | ⟨e₃', _⟩ <;> omega
      · rcases hba with h' | ⟨e₃', hba⟩
        · omega
        · rw [labelLt_asymm h] at hba; exact Bool.false_ne_true hba

theorem Version.lt_trans {a b c : Version}
    (h₁ : Version.lt a b = true) (h₂ : Version.lt b c = true) :
    Version.lt a c = true := by
  rw [Version.lt_iff] at h₁ h₂ ⊢
  rcases h₁ with h₁ | ⟨e₁, h₁⟩
  · rcases h₂ with h₂ | ⟨e₂, _⟩
    · exact Or.inl (by omega)
    · exact Or.inl (by omega)
  · rcases h₂ with h₂ | ⟨e₂, h₂⟩
    · exact Or.inl (by omega)
    refine Or.inr ⟨by omega, ?_⟩
    rcases h₁ with h₁ | ⟨f₁, h₁⟩
    · rcases h₂ with h₂ | ⟨f₂, _⟩
      · exact Or.inl (by omega)
      · exact Or.inl (by omega)
    · rcases h₂ with h₂ | ⟨f₂, h₂⟩
      · exact Or.inl (by omega)
      refine Or.inr ⟨by omega, ?_⟩
      rcases h₁ with h₁ | ⟨g₁, h₁⟩
      · rcases h₂ with h₂ | ⟨g₂, _⟩
        · exact Or.inl (by omega)
        · exact Or.inl (by omega)
      · rcases h₂ with h₂ | ⟨g₂, h₂⟩
        · exact Or.inl (by omega)
        · exact Or.inr ⟨by omega, labelLt_trans h₁ h₂⟩

theorem Version.lt_connex (a b : Version) :
    Version.lt a b = true ∨ a = b ∨ Version.lt b a = true := by
  by_cases h₁ : Version.lt a b = true
  · exact Or.inl h₁
  by_cases h₂ : Version.lt b a = true
  · exact Or.inr (Or.inr h₂)
  refine Or.inr (Or.inl ?_)
  rw [Version.lt_iff] at h₁ h₂
  simp only [not_or, not_and, not_lt] at h₁ h₂
  obtain ⟨v₁, v₂, v₃, v₄⟩ := a
  obtain ⟨w₁, w₂, w₃, w₄⟩ := b
  simp only at h₁ h₂ ⊢
  have e₁ : v₁ = w₁ := by omega
  subst e₁
  have e₂ : v₂ = w₂ := by omega
  subst e₂
  have e₃ : v₃ = w₃ := by omega
  subst e₃
  have l₁ := (h₁.2 rfl).2 rfl |>.2 rfl
  have l₂ := (h₂.2 rfl).2 rfl |>.2 rfl
  simp only [Bool.not_eq_true] at l₁ l₂
  rw [labelLt_eq_of_not_lt l₁ l₂]

theorem Version.lt_irrefl (a : Version) : Version.lt a a = false := by
  rw [Bool.eq_false_iff]
  intro h
  rw [Version.lt_iff] at h
  rcases h with h | ⟨_, h | ⟨_, h | ⟨_, h⟩⟩⟩
  · omega
  · omega
  · omega
  · rw [labelLt_irrefl] at h; exact Bool.false_ne_true h

-- ---------------------------------------------------------------------------
-- Claim theorems: version ordering and constraint matching
-- ---------------------------------------------------------------------------

/-- C7: the comparison operators on `Version` form a total order: for all
versions `a` and `b` exactly one of `a<b`, `a==b`, `b<a` holds and `<` is
transitive; the order is lexicographic on (major, minor, micro); a version
with a non-empty prerelease label is strictly below the same triple with an
empty label; and two versions with equal triples and non-empty labels
compare by ordinary (byte-wise) string order on the labels. -/
theorem c7_version_total_order (a b c : Version) :
    (Version.lt a b = true ∨ a = b ∨ Version.lt b a = true) ∧
    (Version.lt a b = true → a ≠ b) ∧
    (Version.lt a b = true → Version.lt b a = false) ∧
    (a = b → Version.lt a b = false) ∧
    (Version.lt a b = true → Version.lt b c = true → Version.lt a c = true) ∧
    (a.major < b.major → Version.lt a b = true) ∧
    (a.major = b.major → a.minor < b.minor → Version.lt a b = true) ∧
    (a.major = b.major → a.minor = b.minor → a.micro < b.micro →
      Version.lt a b = true) ∧
    (a.major = b.major → a.minor = b.minor → a.micro = b.micro →
      a.label ≠ [] → b.label = [] → Version.lt a b = true) ∧
    (a.major = b.major → a.minor = b.minor → a.micro = b.micro →
      a.label ≠ [] → b.label ≠ [] →
      Version.lt a b = strLtB a.label b.label) := by
  refine ⟨Version.lt_connex a b, ?_, fun h => Version.lt_asymm h, ?_,
    fun h₁ h₂ => Version.lt_trans h₁ h₂, ?_, ?_, ?_, ?_, ?_⟩
  · intro h he
    subst he
    rw [Version.lt_irrefl] at h
    exact Bool.false_ne_true h
  · rintro rfl
    exact Version.lt_irrefl a
  · intro h
    rw [Version.lt_iff]
    exact Or.inl h
  · intro h₁ h₂
    rw [Version.lt_iff]
    exact Or.inr ⟨h₁, Or.inl h₂⟩
  · intro h₁ h₂ h₃
    rw [Version.lt_iff]
    exact Or.inr ⟨h₁, Or.inr ⟨h₂, Or.inl h₃⟩⟩
  · intro h₁ h₂ h₃ h₄ h₅
    rw [Version.lt_iff]
    refine Or.inr ⟨h₁, Or.inr ⟨h₂, Or.inr ⟨h₃, ?_⟩⟩⟩
    unfold labelLt
    simp [List.isEmpty_iff, h₄, h₅]
  · intro h₁ h₂ h₃ h₄ h₅
    unfold Version.lt labelLt
    simp [h₁, h₂, h₃, List.isEmpty_iff, h₄, h₅]

/-- C7 witness: concrete instances of the hypotheses of
`c7_version_total_order`. -/
theorem c7_witness :
    Version.lt ⟨1, 0, 0, ['a']⟩ ⟨1, 0, 0, []⟩ = true ∧
    Version.lt ⟨1, 0, 0, []⟩ ⟨2, 0, 0, []⟩ = true ∧
    Version.lt ⟨1, 0, 0, ['a']⟩ ⟨2, 0, 0, []⟩ = true := by
  have h := c7_version_total_order ⟨1, 0, 0, ['a']⟩ ⟨1, 0, 0, []⟩ ⟨2, 0, 0, []⟩
  have h₁ := h.2.2.2.2.2.2.2.2.1 rfl rfl rfl (by decide) rfl
  have h₂ := (c7_version_total_order ⟨1, 0, 0, []⟩ ⟨2, 0, 0, []⟩
    ⟨2, 0, 0, []⟩).2.2.2.2.2.1 (by decide)
  exact ⟨h₁, h₂, h.2.2.2.2.1 h₁ h₂⟩

/-- C2 counterexample: the boundary constraint `>=1.0.0` does not match
the prerelease `1.5.0-alpha`, although the ordinary comparison
`1.5.0-alpha >= 1.0.0` holds — so boundary operators are not decided by
the comparison alone. -/
theorem c2_counterexample :
    (VersionConstraint.mk .GreaterEq ⟨1, 0, 0⟩).matches
        ⟨1, 5, 0, ['a', 'l', 'p', 'h', 'a']⟩ = false ∧
    Version.ge ⟨1, 5, 0, ['a', 'l', 'p', 'h', 'a']⟩ (pvExpand ⟨1, 0, 0⟩) = true := by
  constructor <;> rfl

/-- C2 amended: every constraint operator — the boundary operators
`>=`, `>`, `<=`, `<` included — rejects any version carrying a non-empty
prerelease label; on versions without a label the boundary operators are
decided by the ordinary comparison against the expanded right-hand side. -/
theorem c2_amended :
    (∀ (c : VersionConstraint) (v : Version), v.label ≠ [] →
      c.matches v = false) ∧
    (∀ (p : PartialVersion) (v : Version), v.label = [] →
      (VersionConstraint.mk .GreaterEq p).matches v = Version.ge v (pvExpand p) ∧
      (VersionConstraint.mk .Greater p).matches v = Version.gt v (pvExpand p) ∧
      (VersionConstraint.mk .LessEq p).matches v = Version.le v (pvExpand p) ∧
      (VersionConstraint.mk .Less p).matches v = Version.lt v (pvExpand p)) := by
  constructor
  · intro c v hv
    have hE : v.label.isEmpty = false := by
      rw [Bool.eq_false_iff]
      simp [List.isEmpty_iff, hv]
    unfold VersionConstraint.matches
    cases c.op <;> simp [hE]
  · intro p v hv
    have hE : v.label.isEmpty = true := by simp [List.isEmpty_iff, hv]
    unfold VersionConstraint.matches
    simp [hE]

/-- C2 witness: concrete instances of the hypotheses of `c2_amended`. -/
theorem c2_witness :
    (VersionConstraint.mk .Exact ⟨1, 0, 0⟩).matches ⟨1, 0, 0, ['a']⟩ = false ∧
    (VersionConstraint.mk .GreaterEq ⟨1, 0, 0⟩).matches ⟨2, 0, 0, []⟩ =
      Version.ge ⟨2, 0, 0, []⟩ (pvExpand ⟨1, 0, 0⟩) :=
  ⟨c2_amended.1 (VersionConstraint.mk .Exact ⟨1, 0, 0⟩) ⟨1, 0, 0, ['a']⟩ (by decide),
   (c2_amended.2 ⟨1, 0, 0⟩ ⟨2, 0, 0, []⟩ rfl).1⟩

/-- C6 counterexample: `Version::parse` accepts trailing non-numeric
garbage after the micro component (`std::stoi` stops at the first
non-digit), and `PartialVersion::parse` accepts negative components (it
has no negativity check, unlike `Version::parse`). -/
theorem c6_counterexample :
    Version.parse "1.2.3abc" = .ok ⟨1, 2, 3, []⟩ ∧
    PartialVersion.parse "-1" = .ok ⟨-1, -1, -1⟩ ∧
    PartialVersion.parse "1.-2" = .ok ⟨1, -2, -1⟩ :=
  ⟨rfl, rfl, rfl⟩

/-- C6 amended: both parsers reject the empty string with a typed
`Version` error; `Version::parse` rejects a trailing `-` with no label and
never yields a negative component; but trailing non-numeric garbage after
a numeric component is accepted, and `PartialVersion::parse` does not
reject negative components. -/
theorem c6_amended :
    errCode (Version.parse "") = some .Version ∧
    errCode (PartialVersion.parse "") = some .Version ∧
    errCode (Version.parse "1.2.3-") = some .Version ∧
    (∀ (s : String) (v : Version), Version.parse s = .ok v →
      0 ≤ v.major ∧ 0 ≤ v.minor ∧ 0 ≤ v.micro) := by
  refine ⟨rfl, rfl, rfl, ?_⟩
  intro s v h
  unfold Version.parse at h
  dsimp only at h
  repeat' (split at h <;> try simp at h)
  all_goals try subst h
  all_goals simp_all

/-- C6 witness: a concrete instance of the hypothesis of `c6_amended`. -/
theorem c6_witness :
    0 ≤ (Version.mk 1 2 3 []).major ∧ 0 ≤ (Version.mk 1 2 3 []).minor ∧
    0 ≤ (Version.mk 1 2 3 []).micro :=
  c6_amended.2.2.2 "1.2.3" ⟨1, 2, 3, []⟩ rfl

-- ---------------------------------------------------------------------------
-- Dependencies, manifests, lockfiles, workspaces (data model)
-- ---------------------------------------------------------------------------

/-- `GitSource` (include/loom/source.hpp). -/
structure GitSource where
  url : String
  tag : Option String := none
  version : Option String := none
  rev : Option String := none
  branch : Option String := none
  deriving DecidableEq, Repr

/-- `PathSource` (include/loom/source.hpp). -/
structure PathSource where
  path : String
  deriving DecidableEq, Repr

/-- `Dependency` (include/loom/source.hpp). -/
structure Dependency where
  name : String
  git : Option GitSource := none
  path : Option PathSource := none
  workspace : Bool := false
  member : Bool := false
  deriving DecidableEq, Repr

/-- `LockedPackage` (include/loom/lockfile.hpp). -/
structure LockedPackage where
  name : String
  version : String := ""
  source : String := ""
  commit : String := ""
  ref : String := ""
  checksum : String := ""
  dependencies : List String := []
  deriving DecidableEq, Repr

/-- `LockFile` (include/loom/lockfile.hpp). -/
structure LockFile where
  loom_version : String := ""
  root_name : String := ""
  root_version : String := ""
  packages : List LockedPackage := []
  deriving DecidableEq, Repr

/-- `WorkspaceConfig` (include/loom/manifest.hpp); only the
shared-dependency table is relevant to the verified properties. -/
structure WorkspaceConfig where
  dependencies : List Dependency := []
  deriving DecidableEq, Repr

/-- `Manifest` (include/loom/manifest.hpp), restricted to the fields the
resolver consults: the package name/version and the dependency list, plus
the optional workspace descriptor. -/
structure Manifest where
  package_name : String := ""
  package_version : String := ""
  dependencies : List Dependency := []
  workspace : Option WorkspaceConfig := none
  deriving DecidableEq, Repr

/-- The canonical source string of a dependency: `git+<url>`, or
`path+<path>`, or empty when neither source is present — exactly the
`source_key` computation of `resolve_workspace` (resolver.cpp:125-130)
and the canonical source of §4.5 of the specification. -/
def depSourceKey (d : Dependency) : String :=
  match d.git with
  | some g => "git+" ++ g.url
  | none =>
    match d.path with
    | some p => "path+" ++ p.path
    | none => ""

/-- Modelled from the spec: `LockFile::is_stale` is declared in
include/loom/lockfile.hpp but its implementation file is not among the
sources; per §3.4/§4.5 a lockfile is stale against a manifest dependency
set iff the set of (name, source) pairs of the lockfile differs from the
manifest's set of (name, canonical-source) pairs, where canonical-source
is `git+<url>` or `path+<path>`. -/
def LockFile.is_stale (lf : LockFile) (manifest_deps : List Dependency) : Bool :=
  let lockPairs := lf.packages.map (fun p => (p.name, p.source))
  let manPairs := manifest_deps.map (fun d => (d.name, depSourceKey d))
  !(lockPairs.all (fun x => manPairs.contains x) &&
    manPairs.all (fun x => lockPairs.contains x))

/-- `ResolveOptions` (include/loom/resolver.hpp). -/
structure ResolveOptions where
  no_local : Bool := false
  offline : Bool := false
  update_all : Bool := false
  update_package : String := ""
  deriving DecidableEq, Repr

-- ---------------------------------------------------------------------------
-- DependencyResolver::resolve (resolver.cpp:22-47)
-- ---------------------------------------------------------------------------

namespace DependencyResolver

/-- `DependencyResolver::resolve` (resolver.cpp:22-47).  The effectful
tail of the function — `resolve_deps` over the filesystem/network plus
`build_lockfile` (lines 39-46) — is abstracted as the parameter
`resolveFull`; the `set_offline` push (lines 27-29) mutates the git
driver only and does not influence the returned value. -/
def resolve
    (resolveFull : Manifest → Option LockFile → ResolveOptions → LoomResult LockFile)
    (manifest : Manifest) (existing_lock : Option LockFile)
    (options : ResolveOptions) : LoomResult LockFile :=
  match existing_lock with
  | some lock =>
      if !options.update_all && !(lock.is_stale manifest.dependencies) then
        .ok lock
      else
        resolveFull manifest existing_lock options
  | none => resolveFull manifest existing_lock options

end DependencyResolver

-- ---------------------------------------------------------------------------
-- Workspace (include/loom/workspace.hpp, src/util/workspace.cpp)
-- ---------------------------------------------------------------------------

/-- `WorkspaceMember` (include/loom/workspace.hpp). -/
structure WorkspaceMember where
  name : String
  version : String := ""
  root_dir : String := ""
  manifest : Manifest
  deriving DecidableEq, Repr

/-- `Workspace` (include/loom/workspace.hpp). -/
structure Workspace where
  root_manifest : Manifest
  root_dir : String := ""
  members : List WorkspaceMember := []
  deriving DecidableEq, Repr

/-- `Workspace::is_virtual` (workspace.cpp:197-199). -/
def Workspace.is_virtual (w : Workspace) : Bool :=
  w.root_manifest.package_name == ""

/-- `Workspace::find_member` (workspace.cpp:169-174). -/
def Workspace.find_member (w : Workspace) (name : String) : Option WorkspaceMember :=
  w.members.find? (fun m => m.name == name)

/-- `Workspace::resolve_workspace_dep` (workspace.cpp:281-295). -/
def Workspace.resolve_workspace_dep (w : Workspace) (dep_name : String) :
    LoomResult Dependency :=
  match w.root_manifest.workspace with
  | none => .error ⟨.Dependency⟩
  | some wc =>
    match wc.dependencies.find? (fun d => d.name == dep_name) with
    | some d => .ok d
    | none => .error ⟨.Dependency⟩

/-- `Workspace::resolve_member_dep` (workspace.cpp:297-308). -/
def Workspace.resolve_member_dep (w : Workspace) (dep_name : String) :
    LoomResult Dependency :=
  match w.find_member dep_name with
  | none => .error ⟨.Dependency⟩
  | some m => .ok { name := dep_name, path := some ⟨m.root_dir⟩ }

-- ---------------------------------------------------------------------------
-- DependencyResolver::resolve_workspace (resolver.cpp:93-166)
-- ---------------------------------------------------------------------------

namespace DependencyResolver

/-- Expansion of one member dependency (resolver.cpp:108-122):
`workspace = true` resolves against the shared-dependency table, then
`member = true` resolves to a path dependency on the matching member. -/
def expandDep (w : Workspace) (dep : Dependency) : LoomResult Dependency := do
  let r₁ ← if dep.workspace then w.resolve_workspace_dep dep.name else pure dep
  let r₂ ← if dep.member then w.resolve_member_dep dep.name else pure r₁
  pure r₂

/-- One step of the member-dependency collection loop
(resolver.cpp:107-144).  The state is the `dep_sources` map (an
association list keyed by package name) and the `all_deps` list. -/
def stepDep (w : Workspace)
    (st : List (String × String) × List Dependency) (dep : Dependency) :
    LoomResult (List (String × String) × List Dependency) := do
  let rd ← expandDep w dep
  let source_key := depSourceKey rd
  match st.1.lookup rd.name with
  | some existing =>
      if existing ≠ source_key then .error ⟨.Dependency⟩
      else pure st
  | none => pure ((rd.name, source_key) :: st.1, st.2 ++ [rd])

/-- The root-manifest dependency pass (resolver.cpp:147-157): for a
non-virtual workspace each root dependency whose name is not yet in
`dep_sources` is added; a name already present is skipped with no source
comparison. -/
def collectRoot (w : Workspace)
    (st : List (String × String) × List Dependency) :
    List (String × String) × List Dependency :=
  if w.is_virtual then st
  else
    w.root_manifest.dependencies.foldl
      (fun st dep =>
        if (st.1.lookup dep.name).isSome then st
        else ((dep.name, depSourceKey dep) :: st.1, st.2 ++ [dep]))
      st

/-- The dependency-collection phase of
`DependencyResolver::resolve_workspace` (resolver.cpp:102-157). -/
def collect_workspace_deps (w : Workspace) : LoomResult (List Dependency) := do
  let st ← w.members.foldlM
    (fun st m => m.manifest.dependencies.foldlM (stepDep w) st)
    (([], []) : List (String × String) × List Dependency)
  pure (collectRoot w st).2

/-- `DependencyResolver::resolve_workspace` (resolver.cpp:93-166); the
effectful tail (`resolve_deps` plus `build_lockfile`, lines 159-165) is
abstracted as `resolveTail`. -/
def resolve_workspace
    (resolveTail : List Dependency → Option LockFile → ResolveOptions → String →
      LoomResult LockFile)
    (w : Workspace) (existing_lock : Option LockFile)
    (options : ResolveOptions) : LoomResult LockFile := do
  let all_deps ← collect_workspace_deps w
  resolveTail all_deps existing_lock options w.root_dir

end DependencyResolver

-- ---------------------------------------------------------------------------
-- Claim theorems: resolver
-- ---------------------------------------------------------------------------

/-- C1: with an existing lockfile present, `update-all` false, and the
lockfile not stale against the manifest's direct dependency set,
`DependencyResolver::resolve` returns the existing lockfile verbatim;
the result does not depend on `resolveFull`, i.e. no re-resolution is
performed. -/
theorem c1_lockfile_reuse
    (resolveFull : Manifest → Option LockFile → ResolveOptions → LoomResult LockFile)
    (manifest : Manifest) (lock : LockFile) (options : ResolveOptions)
    (hupd : options.update_all = false)
    (hstale : lock.is_stale manifest.dependencies = false) :
    DependencyResolver.resolve resolveFull manifest (some lock) options = .ok lock := by
  unfold DependencyResolver.resolve
  simp [hupd, hstale]

/-- C1 witness: a concrete non-stale instance of `c1_lockfile_reuse`
(empty manifest and empty lockfile; the abstract tail always fails, so
the reuse is visible). -/
theorem c1_witness :
    DependencyResolver.resolve (fun _ _ _ => .error ⟨.Io⟩) {} (some {}) {} =
      .ok ({} : LockFile) :=
  c1_lockfile_reuse (fun _ _ _ => .error ⟨.Io⟩) {} {} {} rfl rfl

/-- Appending distinct suffixes to a common front keeps strings distinct. -/
theorem string_append_ne {p u₁ u₂ : String} (h : u₁ ≠ u₂) : p ++ u₁ ≠ p ++ u₂ := by
  intro he
  apply h
  have : (p ++ u₁).data = (p ++ u₂).data := by rw [he]
  rw [String.data_append, String.data_append] at this
  exact String.ext (List.append_cancel_left this)

/-- C10: in `resolve_workspace`, two workspace members declaring the same
dependency name with different source strings is a hard `Dependency`
error, while a root-manifest dependency of a non-virtual workspace whose
name already appears among the members' expanded dependencies is
silently skipped with no source comparison — the member's dependency is
kept and no error is raised, whatever the root dependency's source. -/
theorem c10_workspace_conflicts :
    (∀ (rm : Manifest) (rd : String) (mem₁ mem₂ : WorkspaceMember) (n u₁ u₂ : String),
      mem₁.manifest.dependencies = [{ name := n, git := some { url := u₁ } }] →
      mem₂.manifest.dependencies = [{ name := n, git := some { url := u₂ } }] →
      u₁ ≠ u₂ →
      ∃ e, DependencyResolver.collect_workspace_deps ⟨rm, rd, [mem₁, mem₂]⟩ =
        .error e ∧ e.code = .Dependency) ∧
    (∀ (rm : Manifest) (rd : String) (mem : WorkspaceMember) (n u₁ : String)
        (d₂ : Dependency),
      mem.manifest.dependencies = [{ name := n, git := some { url := u₁ } }] →
      rm.package_name ≠ "" →
      rm.dependencies = [d₂] → d₂.name = n →
      DependencyResolver.collect_workspace_deps ⟨rm, rd, [mem]⟩ =
        .ok [{ name := n, git := some { url := u₁ } }]) := by
  constructor
  · intro rm rd mem₁ mem₂ n u₁ u₂ h₁ h₂ hne
    refine ⟨⟨.Dependency⟩, ?_, rfl⟩
    unfold DependencyResolver.collect_workspace_deps
    simp [h₁, h₂, DependencyResolver.stepDep, DependencyResolver.expandDep,
      depSourceKey, string_append_ne hne]
  · intro rm rd mem n u₁ d₂ h₁ hroot h₂ h₃
    unfold DependencyResolver.collect_workspace_deps
    simp [h₁, DependencyResolver.stepDep, DependencyResolver.expandDep,
      depSourceKey, DependencyResolver.collectRoot, Workspace.is_virtual,
      hroot, h₂, h₃]
    rfl

/-- C10 witness: concrete instances of the hypotheses of
`c10_workspace_conflicts`. -/
theorem c10_witness :
    (∃ e, DependencyResolver.collect_workspace_deps
      ⟨{}, "", [⟨"a", "", "", { dependencies := [{ name := "d", git := some { url := "u1" } }] }⟩,
                ⟨"b", "", "", { dependencies := [{ name := "d", git := some { url := "u2" } }] }⟩]⟩ =
        .error e ∧ e.code = .Dependency) ∧
    DependencyResolver.collect_workspace_deps
      ⟨{ package_name := "root", dependencies := [{ name := "d", git := some { url := "u3" } }] }, "",
        [⟨"a", "", "", { dependencies := [{ name := "d", git := some { url := "u1" } }] }⟩]⟩ =
      .ok [{ name := "d", git := some { url := "u1" } }] :=
  ⟨c10_workspace_conflicts.1 {} "" _ _ "d" "u1" "u2" rfl rfl (by decide),
   c10_workspace_conflicts.2 _ "" _ "d" "u1" _ rfl (by decide) rfl rfl⟩

-- ---------------------------------------------------------------------------
-- Sorting of strings (std::sort with std::string::operator<)
-- ---------------------------------------------------------------------------

/-- The `std::sort` comparator semantics byte-wise: the sorted output
places `a` no later than `b` iff `¬(b < a)`. -/
def bytesLe (a b : List Char) : Prop := strLtB b a = false

instance : DecidableRel bytesLe := fun a b => by unfold bytesLe; infer_instance

theorem bytesLe_total (a b : List Char) : bytesLe a b ∨ bytesLe b a := by
  unfold bytesLe
  cases h₁ : strLtB b a
  · exact Or.inl rfl
  · exact Or.inr (strLtB_asymm h₁)

theorem bytesLe_trans {a b c : List Char} (h₁ : bytesLe a b)
    (h₂ : bytesLe b c) : bytesLe a c := by
  unfold bytesLe at h₁ h₂ ⊢
  rw [Bool.eq_false_iff]
  intro hca
  rcases strLtB_trichotomy a b with hab | hab | hab
  · exact absurd (h₂.symm.trans (strLtB_trans hca hab)) Bool.false_ne_true
  · rw [hab] at hca
    exact absurd (h₂.symm.trans hca) Bool.false_ne_true
  · exact absurd (h₁.symm.trans hab) Bool.false_ne_true

theorem bytesLe_antisymm {a b : List Char} (h₁ : bytesLe a b)
    (h₂ : bytesLe b a) : a = b :=
  strLtB_eq_of_not_lt h₂ h₁

instance : IsTotal (List Char) bytesLe := ⟨bytesLe_total⟩

instance : IsTrans (List Char) bytesLe := ⟨fun _ _ _ => bytesLe_trans⟩

instance : IsAntisymm (List Char) bytesLe := ⟨fun _ _ => bytesLe_antisymm⟩

/-- The `std::sort` comparator on `std::string`. -/
def strLe (a b : String) : Prop := bytesLe a.toList b.toList

instance : DecidableRel strLe := fun a b => by unfold strLe; infer_instance

instance : IsTotal String strLe := ⟨fun a b => bytesLe_total a.toList b.toList⟩

instance : IsTrans String strLe := ⟨fun _ _ _ => bytesLe_trans⟩

instance : IsAntisymm String strLe :=
  ⟨fun _ _ h₁ h₂ => String.ext (bytesLe_antisymm h₁ h₂)⟩

/-- `std::sort(v.begin(), v.end())` over strings: the unique permutation
sorted by the byte-wise order. -/
def sortStrings (l : List String) : List String := l.insertionSort strLe

/-- Sorting by a total, transitive, antisymmetric order is invariant
under permutation of the input. -/
theorem sortStrings_perm_eq {l₁ l₂ : List String} (h : l₁.Perm l₂) :
    sortStrings l₁ = sortStrings l₂ := by
  have hp : (l₁.insertionSort strLe).Perm (l₂.insertionSort strLe) :=
    ((List.perm_insertionSort strLe l₁).trans h).trans
      (List.perm_insertionSort strLe l₂).symm
  exact List.eq_of_perm_of_sorted hp
    (List.sorted_insertionSort strLe l₁) (List.sorted_insertionSort strLe l₂)

-- ---------------------------------------------------------------------------
-- BuildCache::compute_effective_hash (build_cache.cpp:991-1013)
-- ---------------------------------------------------------------------------

/-- `BuildCache::compute_effective_hash` (build_cache.cpp:991-1013).
`SHA256::hash_hex` is an external collaborator; it is abstracted as the
parameter `sha` applied to the `combined` string the C++ builds. -/
def compute_effective_hash (sha : String → String) (content_hash : String)
    (include_hashes defines include_dirs : List String) : String :=
  let sorted_includes := sortStrings include_hashes
  let sorted_defines := sortStrings defines
  let sorted_dirs := sortStrings include_dirs
  let c₁ := sorted_includes.foldl (fun acc h => acc ++ ("|" ++ h)) content_hash
  let c₂ := sorted_defines.foldl (fun acc d => acc ++ ("|" ++ d)) (c₁ ++ "||")
  let c₃ := sorted_dirs.foldl (fun acc d => acc ++ ("|" ++ d)) (c₂ ++ "||")
  sha c₃

/-- C9: `compute_effective_hash` returns the same digest under any
permutation of the include-hash list, the define list, and the
include-dir list, for every hash function, content hash, and inputs. -/
theorem c9_effective_hash_perm (sha : String → String) (content_hash : String)
    (i₁ i₂ d₁ d₂ r₁ r₂ : List String)
    (hi : i₁.Perm i₂) (hd : d₁.Perm d₂) (hr : r₁.Perm r₂) :
    compute_effective_hash sha content_hash i₁ d₁ r₁ =
      compute_effective_hash sha content_hash i₂ d₂ r₂ := by
  unfold compute_effective_hash
  rw [sortStrings_perm_eq hi, sortStrings_perm_eq hd, sortStrings_perm_eq hr]

/-- C9 witness: a concrete permutation instance of
`c9_effective_hash_perm` (with the digest function instantiated to the
identity, so the combined strings themselves are compared). -/
theorem c9_witness :
    compute_effective_hash id "c" ["b", "a"] ["Y", "X"] ["q", "p"] =
      compute_effective_hash id "c" ["a", "b"] ["X", "Y"] ["p", "q"] :=
  c9_effective_hash_perm id "c" _ _ _ _ _ _ (by decide) (by decide) (by decide)

-- ---------------------------------------------------------------------------
-- CacheManager::compute_checksum (cache.cpp:82-121)
-- ---------------------------------------------------------------------------

/-- `std::string::find(pat) != npos`: `pat` occurs as a contiguous
substring. -/
def hasSub (pat : List Char) : List Char → Bool
  | [] => pat.isEmpty
  | c :: rest => pat.isPrefixOf (c :: rest) || hasSub pat rest

/-- The VCS-exclusion test of `compute_checksum` (cache.cpp:93-95):
`rel.find("/.git/") != npos || rel.find("/.git") == 0`, where `rel` is
the path relative to the checkout root and begins with `/`. -/
def skipsGit (rel : List Char) : Bool :=
  hasSub "/.git/".toList rel || "/.git".toList.isPrefixOf rel

/-- The streamed 8192-byte read loop of `compute_checksum`
(cache.cpp:109-117): full buffers are fed inside the `while`, the final
partial buffer by the `if` after it. -/
def chunkFeed (content : List Nat) : List Nat :=
  if content.length ≥ 8192 then content.take 8192 ++ chunkFeed (content.drop 8192)
  else if content.length > 0 then content
  else []
  termination_by content.length
  decreasing_by simp; omega

/-- Each file's bytes enter the hash stream exactly once: the chunked
read loop reproduces the file contents. -/
theorem chunkFeed_eq (c : List Nat) : chunkFeed c = c := by
  rw [chunkFeed]
  split
  · rw [chunkFeed_eq (c.drop 8192)]
    exact List.take_append_drop _ _
  · split
    · rfl
    · rename_i h₁ h₂
      have : c.length = 0 := by omega
      rw [List.length_eq_zero] at this
      rw [this]
  termination_by c.length
  decreasing_by simp; omega

/-- Ordering used by the `std::sort` of cache.cpp:98 on the collected
full paths: all paths share the checkout root, so it is the byte-wise
order on the relative paths (the file contents travel with their path,
as on a filesystem). -/
def fileLe (a b : List Char × List Nat) : Prop := bytesLe a.1 b.1

instance : DecidableRel fileLe := fun a b => by unfold fileLe; infer_instance

instance : IsTotal (List Char × List Nat) fileLe :=
  ⟨fun a b => bytesLe_total a.1 b.1⟩

instance : IsTrans (List Char × List Nat) fileLe :=
  ⟨fun _ _ _ => bytesLe_trans⟩

/-- The byte stream fed to the SHA-256 hasher by
`CacheManager::compute_checksum` (cache.cpp:82-121).  The directory is
modelled as the list of its regular files, `(relative path, contents)`
with the leading `/` kept, enumerated in arbitrary filesystem order;
the digest returned by the C++ is the SHA-256 hex digest of this
stream.  (The existence check at cache.cpp:83-86 and unreadable files,
`if (!in) continue`, are outside the model: the directory exists and
all files are readable.) -/
def computeChecksumStream (files : List (List Char × List Nat)) : List Nat :=
  let surviving := files.filter (fun f => !skipsGit f.1)
  let sorted := surviving.insertionSort fileLe
  sorted.flatMap (fun f => f.1.map Char.toNat ++ chunkFeed f.2)

/-- Strict byte-wise order on relative paths. -/
def fileStrict (a b : List Char × List Nat) : Prop := strLtB a.1 b.1 = true

instance : IsAntisymm (List Char × List Nat) fileStrict :=
  ⟨fun _ _ h₁ h₂ => absurd ((strLtB_asymm h₁).symm.trans h₂) Bool.false_ne_true⟩

/-- A `fileLe`-sorted list with pairwise-distinct relative paths is
strictly sorted. -/
theorem sorted_fileLe_strict {l : List (List Char × List Nat)}
    (hn : (l.map Prod.fst).Nodup) (hs : List.Sorted fileLe l) :
    List.Sorted fileStrict l := by
  have hpn : l.Pairwise (fun a b => a.1 ≠ b.1) := by
    rw [List.Nodup, List.pairwise_map] at hn
    exact hn
  refine (hs.and hpn).imp ?_
  rintro a b ⟨hle, hne⟩
  rcases strLtB_trichotomy a.1 b.1 with h | h | h
  · exact h
  · exact absurd h hne
  · exact absurd (hle.symm.trans h) Bool.false_ne_true

/-- With pairwise-distinct relative paths, sorting is invariant under
permutation of the enumeration order. -/
theorem sortFiles_perm_eq {l₁ l₂ : List (List Char × List Nat)}
    (h : l₁.Perm l₂) (hn : (l₁.map Prod.fst).Nodup) :
    l₁.insertionSort fileLe = l₂.insertionSort fileLe := by
  have hp : (l₁.insertionSort fileLe).Perm (l₂.insertionSort fileLe) :=
    ((List.perm_insertionSort fileLe l₁).trans h).trans
      (List.perm_insertionSort fileLe l₂).symm
  have hn₁ : ((l₁.insertionSort fileLe).map Prod.fst).Nodup :=
    hn.perm ((List.perm_insertionSort fileLe l₁).map Prod.fst).symm
  have hn₂ : ((l₂.insertionSort fileLe).map Prod.fst).Nodup :=
    hn₁.perm (hp.map Prod.fst)
  exact List.eq_of_perm_of_sorted hp
    (sorted_fileLe_strict hn₁ (List.sorted_insertionSort fileLe l₁))
    (sorted_fileLe_strict hn₂ (List.sorted_insertionSort fileLe l₂))

/-- C5 counterexample: a top-level `.gitignore` does not contribute to
the digest — the prefix test `rel.find("/.git") == 0` also matches
`/.gitignore`, so the file is excluded and the hashed stream is empty
whatever its contents. -/
theorem c5_counterexample :
    skipsGit "/.gitignore".toList = true ∧
    computeChecksumStream [("/.gitignore".toList, [65])] = [] ∧
    computeChecksumStream [("/.gitignore".toList, [66])] = [] := by
  refine ⟨by decide, ?_, ?_⟩ <;> rfl

/-- C5 amended: the digest is the SHA-256 hex digest of the stream
`<relpath><file-bytes>` over the surviving files in lexicographically
sorted path order, each file's bytes fed exactly once; excluded are
exactly the files whose relative path contains `/.git/` or starts with
the prefix `/.git` — which covers leading and nested `.git` directory
segments but also any top-level name beginning with `.git`, such as
`.gitignore`.  The stream is invariant under the filesystem enumeration
order, and appending an excluded file leaves it unchanged. -/
theorem c5_amended :
    (∀ files, computeChecksumStream files =
      ((files.filter (fun f => !skipsGit f.1)).insertionSort fileLe).flatMap
        (fun f => f.1.map Char.toNat ++ f.2)) ∧
    (∀ files₁ files₂, files₁.Perm files₂ → (files₁.map Prod.fst).Nodup →
      computeChecksumStream files₁ = computeChecksumStream files₂) ∧
    (∀ files f, skipsGit f.1 = true →
      computeChecksumStream (files ++ [f]) = computeChecksumStream files) := by
  refine ⟨?_, ?_, ?_⟩
  · intro files
    unfold computeChecksumStream
    simp only [chunkFeed_eq]
  · intro f₁ f₂ hperm hnodup
    unfold computeChecksumStream
    dsimp only
    rw [sortFiles_perm_eq (hperm.filter _)
      (hnodup.sublist ((List.filter_sublist f₁).map Prod.fst))]
  · intro files f hskip
    unfold computeChecksumStream
    dsimp only
    rw [List.filter_append]
    simp [hskip]

/-- C5 witness: concrete instances of the hypotheses of `c5_amended`:
two enumeration orders of the same two-file tree give the same stream,
and adding a `.git` object file leaves the stream unchanged. -/
theorem c5_witness :
    computeChecksumStream [("/a.sv".toList, [1]), ("/b.sv".toList, [2])] =
      computeChecksumStream [("/b.sv".toList, [2]), ("/a.sv".toList, [1])] ∧
    computeChecksumStream
        [("/a.sv".toList, [1]), ("/.git/objects/x".toList, [9])] =
      computeChecksumStream [("/a.sv".toList, [1])] :=
  ⟨c5_amended.2.1 _ _ (by decide) (by decide),
   c5_amended.2.2 [("/a.sv".toList, [1])] ("/.git/objects/x".toList, [9])
     (by decide)⟩

-- ---------------------------------------------------------------------------
-- Tag parsing (src/util/git.cpp:142-234)
-- ---------------------------------------------------------------------------

/-- `RemoteTag` (include/loom/git.hpp). -/
structure RemoteTag where
  name : String
  commit : String
  version : Version
  deriving DecidableEq, Repr

/-- The `RawTag` record local to `parse_ls_remote_tags`
(git.cpp:159-163). -/
structure RawTag where
  sha : String
  name : String
  is_deref : Bool
  deriving DecidableEq, Repr

/-- `strip_v_prefix` (git.cpp:142-147). -/
def strip_v (tag : List Char) : List Char :=
  match tag with
  | c :: rest => if c = 'v' ∨ c = 'V' then rest else tag
  | [] => tag

/-- The body of the line loop of `parse_ls_remote_tags`
(git.cpp:166-192): skip empty lines and lines without a tab or without
the `refs/tags/` prefix; recognize and strip a `^{}` suffix. -/
def parseLine (line : List Char) : Option RawTag :=
  if line.isEmpty then none
  else
    match findIdx '\t' line with
    | none => none
    | some tab_pos =>
      let sha := line.take tab_pos
      let ref := line.drop (tab_pos + 1)
      if !("refs/tags/".toList.isPrefixOf ref) then none
      else
        let tag_name := ref.drop 10
        if tag_name.length > 3 &&
            decide (tag_name.drop (tag_name.length - 3) = "^{}".toList) then
          some ⟨String.mk sha, String.mk (tag_name.take (tag_name.length - 3)), true⟩
        else
          some ⟨String.mk sha, String.mk tag_name, false⟩

/-- The parsed `raw_tags` list (git.cpp:164-192). -/
def rawTagsOf (output : String) : List RawTag :=
  (output.toList.splitOn '\n').filterMap parseLine

/-- `std::unordered_map::find` on the association-list model. -/
def alookup (m : List (String × String)) (n : String) : Option String :=
  match m with
  | [] => none
  | (k, v) :: rest => if n = k then some v else alookup rest n

/-- In-place value replacement in the `tag_sha` map
(`it->second = rt.sha`, git.cpp:203): the entry found by the iterator —
keys are unique, so the first match — takes the new value. -/
def replaceVal : List (String × String) → String → String → List (String × String)
  | [], _, _ => []
  | (k', v') :: rest, k, v =>
      if k' = k then (k, v) :: rest else (k', v') :: replaceVal rest k v

/-- One step of the `tag_sha` accumulation loop (git.cpp:196-205): a
first occurrence inserts its SHA; later occurrences override only when
they are deref (`^{}`) lines.  The `std::unordered_map` is modelled as
an association list in insertion order (its C++ iteration order is
unspecified; every property proved below is insensitive to it). -/
def insertRaw (m : List (String × String)) (rt : RawTag) :
    List (String × String) :=
  match alookup m rt.name with
  | none => m ++ [(rt.name, rt.sha)]
  | some _ => if rt.is_deref then replaceVal m rt.name rt.sha else m

/-- Descending comparator used by the `std::sort` of git.cpp:216-219:
the sorted output places `a` no later than `b` iff `¬(b.version >
a.version)`, i.e. `¬(a.version < b.version)`. -/
def tagGe (a b : RemoteTag) : Prop := Version.lt a.version b.version = false

instance : DecidableRel tagGe := fun a b => by unfold tagGe; infer_instance

instance : IsTotal RemoteTag tagGe :=
  ⟨fun a b => by
    unfold tagGe
    cases h : Version.lt a.version b.version
    · exact Or.inl rfl
    · exact Or.inr (Version.lt_asymm h)⟩

instance : IsTrans RemoteTag tagGe :=
  ⟨fun a b c h₁ h₂ => by
    unfold tagGe at h₁ h₂ ⊢
    rw [Bool.eq_false_iff]
    intro hac
    rcases Version.lt_connex a.version b.version with h | h | h
    · exact absurd (h₁.symm.trans h) Bool.false_ne_true
    · rw [h] at hac
      exact absurd (h₂.symm.trans hac) Bool.false_ne_true
    · exact absurd (h₂.symm.trans (Version.lt_trans h hac)) Bool.false_ne_true⟩

/-- The tag-construction step of git.cpp:207-213: strip a leading `v` or
`V`, parse the remainder as a version, silently skip names that do not
parse. -/
def tagOfEntry (p : String × String) : Option RemoteTag :=
  match Version.parse (String.mk (strip_v p.1.toList)) with
  | .ok v => some ⟨p.1, p.2, v⟩
  | .error _ => none

/-- `parse_ls_remote_tags` (git.cpp:149-222). -/
def parse_ls_remote_tags (output : String) : LoomResult (List RemoteTag) :=
  let raw_tags := rawTagsOf output
  let tag_sha := raw_tags.foldl insertRaw []
  let tags := tag_sha.filterMap tagOfEntry
  .ok (tags.insertionSort tagGe)

/-- `resolve_version_from_tags` (git.cpp:224-234). -/
def resolve_version_from_tags (tags : List RemoteTag) (req : VersionReq) :
    LoomResult RemoteTag :=
  match tags.find? (fun t => req.matches t.version) with
  | some t => .ok t
  | none => .error ⟨.Version⟩

/-- The SHA the claim says survives for a tag name: the latest-seen SHA
from a `^{}` line when one exists, otherwise the first-seen SHA. -/
def latestDerefElseFirstSha (raws : List RawTag) (n : String) : Option String :=
  match raws.reverse.find? (fun rt => decide (rt.name = n) && rt.is_deref) with
  | some rt => some rt.sha
  | none => (raws.find? (fun rt => decide (rt.name = n))).map (·.sha)

-- ---------------------------------------------------------------------------
-- Association-list lemmas for the tag_sha map
-- ---------------------------------------------------------------------------

theorem alookup_append (m l : List (String × String)) (n : String) :
    alookup (m ++ l) n = (alookup m n).or (alookup l n) := by
  induction m with
  | nil => cases h : alookup l n <;> simp [alookup, h]
  | cons p rest ih =>
    obtain ⟨pk, pv⟩ := p
    rw [List.cons_append]
    by_cases h : n = pk <;> simp [alookup, h, ih]

theorem alookup_replaceVal (m : List (String × String)) (k v n : String) :
    alookup (replaceVal m k v) n =
      if n = k then (alookup m k).map (fun _ => v) else alookup m n := by
  induction m with
  | nil => by_cases h : n = k <;> simp [replaceVal, alookup, h]
  | cons p rest ih =>
    obtain ⟨pk, pv⟩ := p
    unfold replaceVal
    by_cases hpk : pk = k
    · subst hpk
      rw [if_pos rfl]
      by_cases hnk : n = pk <;> simp [alookup, hnk]
    · rw [if_neg hpk]
      have hkp : ¬ k = pk := fun h => hpk h.symm
      by_cases hnp : n = pk
      · subst hnp
        have hnk : ¬ n = k := hpk
        simp [alookup, hnk]
      · by_cases hnk : n = k
        · subst hnk
          simp [alookup, hkp, hnp, ih]
        · simp [alookup, hnp, hnk, ih]

theorem keys_replaceVal (m : List (String × String)) (k v : String) :
    (replaceVal m k v).map Prod.fst = m.map Prod.fst := by
  induction m with
  | nil => rfl
  | cons p rest ih =>
    obtain ⟨pk, pv⟩ := p
    unfold replaceVal
    by_cases hpk : pk = k
    · subst hpk
      rw [if_pos rfl]
      simp
    · rw [if_neg hpk]
      simp [ih]

theorem not_mem_keys_of_alookup_none {m : List (String × String)} {n : String}
    (h : alookup m n = none) : n ∉ m.map Prod.fst := by
  induction m with
  | nil => simp
  | cons p rest ih =>
    unfold alookup at h
    by_cases hnp : n = p.1
    · simp [hnp] at h
    · simp only [hnp, if_false] at h
      simp only [List.map_cons, List.mem_cons]
      rintro (he | hm)
      · exact hnp he
      · exact ih h hm

theorem mem_of_alookup_eq_some {m : List (String × String)} {n s : String}
    (h : alookup m n = some s) : (n, s) ∈ m := by
  induction m with
  | nil => simp [alookup] at h
  | cons p rest ih =>
    obtain ⟨pk, pv⟩ := p
    unfold alookup at h
    by_cases hnp : n = pk
    · rw [if_pos hnp] at h
      cases h
      rw [hnp]
      exact List.mem_cons_self _ _
    · rw [if_neg hnp] at h
      exact List.mem_cons_of_mem _ (ih h)

theorem alookup_eq_some_of_mem {m : List (String × String)} {n s : String}
    (hn : (m.map Prod.fst).Nodup) (h : (n, s) ∈ m) : alookup m n = some s := by
  induction m with
  | nil => simp at h
  | cons p rest ih =>
    simp only [List.map_cons, List.nodup_cons] at hn
    unfold alookup
    rcases List.mem_cons.mp h with he | hm
    · rw [← he]
      simp
    · have hne : n ≠ p.1 := by
        intro he
        exact hn.1 (he ▸ (List.mem_map.mpr ⟨(n, s), hm, rfl⟩))
      rw [if_neg hne]
      exact ih hn.2 hm

theorem keys_insertRaw_nodup {m : List (String × String)} {rt : RawTag}
    (hn : (m.map Prod.fst).Nodup) :
    ((insertRaw m rt).map Prod.fst).Nodup := by
  unfold insertRaw
  cases hl : alookup m rt.name with
  | none =>
    rw [List.map_append]
    simp only [List.map_cons, List.map_nil]
    rw [List.nodup_append]
    exact ⟨hn, List.nodup_singleton _,
      by simpa using fun hm => (not_mem_keys_of_alookup_none hl) hm⟩
  | some v =>
    cases rt.is_deref
    · simpa using hn
    · simpa [keys_replaceVal] using hn

theorem keys_foldl_insertRaw_nodup (rs : List RawTag) :
    ∀ (m : List (String × String)), (m.map Prod.fst).Nodup →
    ((rs.foldl insertRaw m).map Prod.fst).Nodup := by
  induction rs with
  | nil => exact fun _ hm => hm
  | cons rt rest ih => exact fun _ hm => ih _ (keys_insertRaw_nodup hm)

/-- The lookup of the `tag_sha` map after folding the raw tags: the
latest-seen deref SHA wins; otherwise the accumulator's entry; otherwise
the first-seen SHA. -/
theorem alookup_foldl_insertRaw (rs : List RawTag) :
    ∀ (m : List (String × String)) (n : String),
    alookup (rs.foldl insertRaw m) n =
      match rs.reverse.find? (fun rt => decide (rt.name = n) && rt.is_deref) with
      | some rt => some rt.sha
      | none =>
        match alookup m n with
        | some v => some v
        | none => (rs.find? (fun rt => decide (rt.name = n))).map (·.sha) := by
  induction rs with
  | nil =>
    intro m n
    cases h : alookup m n <;> simp [h]
  | cons rt rest ih =>
    intro m n
    rw [List.foldl_cons, ih]
    rw [List.reverse_cons, List.find?_append]
    cases hfind : rest.reverse.find? (fun x => decide (x.name = n) && x.is_deref) with
    | some x => rfl
    | none =>
      simp only [Option.none_or]
      by_cases hname : rt.name = n
      · subst hname
        cases hderef : rt.is_deref with
        | true =>
          have hone : List.find? (fun x => decide (x.name = rt.name) && x.is_deref) [rt] =
              some rt := by
            rw [List.find?_cons]
            simp [hderef]
          rw [hone]
          cases hl : alookup m rt.name with
          | none =>
            have hins : insertRaw m rt = m ++ [(rt.name, rt.sha)] := by
              unfold insertRaw
              rw [hl]
            rw [hins, alookup_append, hl]
            simp [alookup]
          | some v =>
            have hins : insertRaw m rt = replaceVal m rt.name rt.sha := by
              unfold insertRaw
              rw [hl, hderef]
              rfl
            rw [hins, alookup_replaceVal]
            simp [hl]
        | false =>
          have hone : List.find? (fun x => decide (x.name = rt.name) && x.is_deref) [rt] =
              none := by
            rw [List.find?_cons]
            simp [hderef]
          rw [hone]
          cases hl : alookup m rt.name with
          | none =>
            have hins : insertRaw m rt = m ++ [(rt.name, rt.sha)] := by
              unfold insertRaw
              rw [hl]
            rw [hins, alookup_append, hl]
            rw [List.find?_cons]
            simp [alookup]
          | some v =>
            have hins : insertRaw m rt = m := by
              unfold insertRaw
              rw [hl, hderef]
              rfl
            rw [hins, hl]
      · have hone : List.find? (fun x => decide (x.name = n) && x.is_deref) [rt] =
            none := by
          rw [List.find?_cons]
          simp [hname]
        rw [hone]
        have hnn : ¬ n = rt.name := fun h => hname h.symm
        have hsame : alookup (insertRaw m rt) n = alookup m n := by
          cases hl : alookup m rt.name with
          | none =>
            have hins : insertRaw m rt = m ++ [(rt.name, rt.sha)] := by
              unfold insertRaw
              rw [hl]
            rw [hins, alookup_append]
            have hsin : alookup [(rt.name, rt.sha)] n = none := by
              simp [alookup, hnn]
            rw [hsin]
            cases hmn : alookup m n <;> rfl
          | some v =>
            cases hderef : rt.is_deref with
            | false =>
              have hins : insertRaw m rt = m := by
                unfold insertRaw
                rw [hl, hderef]
                rfl
              rw [hins]
            | true =>
              have hins : insertRaw m rt = replaceVal m rt.name rt.sha := by
                unfold insertRaw
                rw [hl, hderef]
                rfl
              rw [hins, alookup_replaceVal, if_neg hnn]
        rw [hsame, List.find?_cons]
        simp only [hname, decide_False, Bool.false_and, Bool.false_eq_true, if_false]

/-- After folding from the empty map, the lookup is exactly the SHA the
claim describes. -/
theorem tagsha_alookup (raws : List RawTag) (n : String) :
    alookup (raws.foldl insertRaw []) n = latestDerefElseFirstSha raws n := by
  rw [alookup_foldl_insertRaw]
  unfold latestDerefElseFirstSha
  cases h : raws.reverse.find? (fun rt => decide (rt.name = n) && rt.is_deref) <;>
    simp [alookup]

/-- The names of the constructed tags form a sublist of the map's keys. -/
theorem tags_names_sublist (l : List (String × String)) :
    ((l.filterMap tagOfEntry).map (fun t => t.name)).Sublist (l.map Prod.fst) := by
  induction l with
  | nil => simp
  | cons p rest ih =>
    rw [List.filterMap_cons]
    cases hp : tagOfEntry p with
    | none => exact (List.map_cons _ p _) ▸ ih.cons _
    | some t =>
      have hname : t.name = p.1 := by
        unfold tagOfEntry at hp
        cases hv : Version.parse (String.mk (strip_v p.1.toList)) with
        | ok v => rw [hv] at hp; cases hp; rfl
        | error e => rw [hv] at hp; cases hp
      rw [List.map_cons, List.map_cons, hname]
      exact ih.cons₂ _

/-- The fields of a constructed tag trace back to its map entry. -/
theorem tagOfEntry_fields {p : String × String} {t : RemoteTag}
    (hp : tagOfEntry p = some t) :
    t.name = p.1 ∧ t.commit = p.2 ∧
      Version.parse (String.mk (strip_v p.1.toList)) = .ok t.version := by
  unfold tagOfEntry at hp
  cases hv : Version.parse (String.mk (strip_v p.1.toList)) with
  | ok v => rw [hv] at hp; cases hp; exact ⟨rfl, rfl, hv ▸ rfl⟩
  | error e => rw [hv] at hp; cases hp

/-- C8: `parse_ls_remote_tags` keeps one entry per tag name, whose SHA is
the latest-seen `^{}` (deref) SHA when one exists and the first-seen SHA
otherwise; the tag name is stripped of a leading `v`/`V` and parsed as a
version, names that do not parse being silently skipped; the returned
list is sorted by version in descending order.  On such a list,
`resolve_version_from_tags` returns a highest-version tag satisfying the
requirement, or a typed `Version` error when no tag satisfies it. -/
theorem c8_tag_resolution :
    (∀ output, ∃ tags, parse_ls_remote_tags output = .ok tags ∧
      tags.Pairwise tagGe ∧
      (tags.map (fun t => t.name)).Nodup ∧
      (∀ t ∈ tags,
        latestDerefElseFirstSha (rawTagsOf output) t.name = some t.commit ∧
        Version.parse (String.mk (strip_v t.name.toList)) = .ok t.version) ∧
      (∀ n sha v, latestDerefElseFirstSha (rawTagsOf output) n = some sha →
        Version.parse (String.mk (strip_v n.toList)) = .ok v →
        (⟨n, sha, v⟩ : RemoteTag) ∈ tags) ∧
      (∀ n e, Version.parse (String.mk (strip_v n.toList)) = .error e →
        ∀ t ∈ tags, t.name ≠ n)) ∧
    (∀ (tags : List RemoteTag) (req : VersionReq), tags.Pairwise tagGe →
      ((∃ t ∈ tags, req.matches t.version = true) →
        ∃ tbest, resolve_version_from_tags tags req = .ok tbest ∧
          tbest ∈ tags ∧ req.matches tbest.version = true ∧
          ∀ t ∈ tags, req.matches t.version = true →
            Version.lt tbest.version t.version = false) ∧
      ((∀ t ∈ tags, req.matches t.version = false) →
        ∃ e, resolve_version_from_tags tags req = .error e ∧
          e.code = .Version)) := by
  constructor
  · intro output
    refine ⟨_, rfl, ?_, ?_, ?_, ?_, ?_⟩
    · exact List.sorted_insertionSort tagGe _
    · have hkeys : ((((rawTagsOf output).foldl insertRaw []).map Prod.fst)).Nodup :=
        keys_foldl_insertRaw_nodup _ [] (by simp)
      have h0 : (((((rawTagsOf output).foldl insertRaw []).filterMap tagOfEntry)).map
          (fun t => t.name)).Nodup :=
        (tags_names_sublist _).nodup hkeys
      exact ((List.perm_insertionSort tagGe _).map (fun t => t.name)).nodup_iff.mpr h0
    · intro t ht
      have ht0 := (List.perm_insertionSort tagGe _).subset ht
      obtain ⟨p, hpmem, hpt⟩ := List.mem_filterMap.mp ht0
      obtain ⟨hn, hc, hv⟩ := tagOfEntry_fields hpt
      have hkeys : ((((rawTagsOf output).foldl insertRaw []).map Prod.fst)).Nodup :=
        keys_foldl_insertRaw_nodup _ [] (by simp)
      have hlook : alookup ((rawTagsOf output).foldl insertRaw []) p.1 = some p.2 :=
        alookup_eq_some_of_mem hkeys (by rw [show (p.1, p.2) = p from rfl]; exact hpmem)
      rw [← tagsha_alookup, hn, hc]
      exact ⟨hlook, hn ▸ hv⟩
    · intro n sha v hlat hv
      rw [← tagsha_alookup] at hlat
      have hmem := mem_of_alookup_eq_some hlat
      have ht0 : (⟨n, sha, v⟩ : RemoteTag) ∈
          (((rawTagsOf output).foldl insertRaw []).filterMap tagOfEntry) := by
        apply List.mem_filterMap.mpr
        refine ⟨(n, sha), hmem, ?_⟩
        unfold tagOfEntry
        rw [hv]
      exact (List.perm_insertionSort tagGe _).symm.subset ht0
    · intro n e he t ht hname
      have ht0 := (List.perm_insertionSort tagGe _).subset ht
      obtain ⟨p, _, hpt⟩ := List.mem_filterMap.mp ht0
      obtain ⟨hn, _, hv⟩ := tagOfEntry_fields hpt
      rw [hn] at hname
      rw [hname, he] at hv
      cases hv
  · intro tags req hsorted
    constructor
    · intro hex
      induction tags with
      | nil => simp at hex
      | cons t ts ih =>
        cases hm : req.matches t.version with
        | true =>
          refine ⟨t, ?_, List.mem_cons_self _ _, hm, ?_⟩
          · unfold resolve_version_from_tags
            rw [List.find?_cons, hm]
          · intro t' ht' _
            rcases List.mem_cons.mp ht' with he | hmem
            · rw [he, Version.lt_irrefl]
            · exact (List.pairwise_cons.mp hsorted).1 t' hmem
        | false =>
          have hex' : ∃ t' ∈ ts, req.matches t'.version = true := by
            obtain ⟨t', ht', hm'⟩ := hex
            rcases List.mem_cons.mp ht' with he | hmem
            · rw [he] at hm'; rw [hm'] at hm; cases hm
            · exact ⟨t', hmem, hm'⟩
          obtain ⟨tb, hres, hmem, hmb, hmax⟩ :=
            ih (List.pairwise_cons.mp hsorted).2 hex'
          refine ⟨tb, ?_, List.mem_cons_of_mem _ hmem, hmb, ?_⟩
          · unfold resolve_version_from_tags at hres ⊢
            rw [List.find?_cons, hm]
            exact hres
          · intro t' ht' hm'
            rcases List.mem_cons.mp ht' with he | hmem'
            · rw [he] at hm'; rw [hm'] at hm; cases hm
            · exact hmax t' hmem' hm'
    · intro hall
      refine ⟨⟨.Version⟩, ?_, rfl⟩
      unfold resolve_version_from_tags
      have : tags.find? (fun t => req.matches t.version) = none := by
        rw [List.find?_eq_none]
        intro t ht
        rw [hall t ht]
        exact Bool.false_ne_true
      rw [this]

/-- C8 witness: a concrete `ls-remote` output exercising every
hypothesis: an annotated tag whose latest deref SHA wins, a lightweight
tag, a non-semver name skipped, and a requirement resolved to the
highest matching tag. -/
theorem c8_witness :
    (∃ tags, parse_ls_remote_tags
        "a1\trefs/tags/v1.0.0\na2\trefs/tags/v1.0.0^{}\nb1\trefs/tags/v1.2.0\nx\trefs/tags/junk" =
      .ok tags ∧ tags.Pairwise tagGe) ∧
    (∃ tbest, resolve_version_from_tags
        [⟨"v1.2.0", "b1", ⟨1, 2, 0, []⟩⟩, ⟨"v1.0.0", "a2", ⟨1, 0, 0, []⟩⟩]
        ⟨[⟨.Caret, ⟨1, 0, 0⟩⟩]⟩ = .ok tbest ∧
      tbest ∈ [⟨"v1.2.0", "b1", ⟨1, 2, 0, []⟩⟩, ⟨"v1.0.0", "a2", ⟨1, 0, 0, []⟩⟩] ∧
      (⟨[⟨.Caret, ⟨1, 0, 0⟩⟩]⟩ : VersionReq).matches tbest.version = true ∧
      ∀ t ∈ [(⟨"v1.2.0", "b1", ⟨1, 2, 0, []⟩⟩ : RemoteTag),
             ⟨"v1.0.0", "a2", ⟨1, 0, 0, []⟩⟩],
        (⟨[⟨.Caret, ⟨1, 0, 0⟩⟩]⟩ : VersionReq).matches t.version = true →
        Version.lt tbest.version t.version = false) := by
  constructor
  · obtain ⟨tags, h₁, h₂, _⟩ := c8_tag_resolution.1
      "a1\trefs/tags/v1.0.0\na2\trefs/tags/v1.0.0^{}\nb1\trefs/tags/v1.2.0\nx\trefs/tags/junk"
    exact ⟨tags, h₁, h₂⟩
  · exact (c8_tag_resolution.2
      [⟨"v1.2.0", "b1", ⟨1, 2, 0, []⟩⟩, ⟨"v1.0.0", "a2", ⟨1, 0, 0, []⟩⟩]
      ⟨[⟨.Caret, ⟨1, 0, 0⟩⟩]⟩ (by decide)).1
      ⟨⟨"v1.2.0", "b1", ⟨1, 2, 0, []⟩⟩, by decide, by decide⟩

-- ---------------------------------------------------------------------------
-- Graph and Kahn topological sort (include/loom/graph.hpp:63-93)
-- ---------------------------------------------------------------------------

/-- `Graph` (include/loom/graph.hpp): nodes are the indices
`0 .. adj.length - 1`; `adj` is the forward adjacency list `adj_` in
push order.  The reverse adjacency `radj_` is kept in lockstep by
`add_edge`, so `radj_[v].size()` equals the number of occurrences of `v`
across `adj`; it is derived rather than stored. -/
structure Graph where
  adj : List (List Nat)
  deriving DecidableEq, Repr

/-- Well-formedness: every edge target named in `adj` is a node.  (In
C++ an out-of-range target indexes `radj_` out of bounds in `add_edge`,
which is undefined; graphs built through the API satisfy this.) -/
def Graph.WF (g : Graph) : Prop :=
  ∀ l ∈ g.adj, ∀ v ∈ l, v < g.adj.length

instance (g : Graph) : Decidable g.WF := by unfold Graph.WF; infer_instance

/-- The edge relation: `u → v` iff `v` occurs in `u`'s adjacency list. -/
def edgeRel (adj : List (List Nat)) (u v : Nat) : Prop := v ∈ adj.getD u []

/-- A directed cycle: a nonempty edge path from some node to itself. -/
def Graph.IsCyclic (g : Graph) : Prop :=
  ∃ v, Relation.TransGen (edgeRel g.adj) v v

/-- `radj_[v].size()` — the in-degree used at graph.hpp:66-68. -/
def inDeg (adj : List (List Nat)) (v : Nat) : Nat :=
  ((List.range adj.length).map (fun u => (adj.getD u []).count v)).sum

/-- The in-degree of `v` counting only edges whose source is not yet
popped (the value `in_deg[v]` holds throughout the Kahn loop). -/
def remDeg (adj : List (List Nat)) (popped : List Nat) (v : Nat) : Nat :=
  (((List.range adj.length).filter (fun u => decide (u ∉ popped))).map
    (fun u => (adj.getD u []).count v)).sum

/-- The inner edge loop of the Kahn iteration (graph.hpp:81-85): for each
edge `u → v` decrement `in_deg[v]` and push `v` when it reaches zero.
The C++ `--in_deg[e.to] == 0` on `size_t` pushes exactly when the value
was 1 before the decrement (a wrapped counter is never 0 again within
fewer than `2^64` decrements). -/
def processEdges (targets : List Nat) (indeg : List Nat) : List Nat × List Nat :=
  match targets with
  | [] => (indeg, [])
  | v :: rest =>
    let d := indeg.getD v 0
    let indeg' := indeg.set v (d - 1)
    let r := processEdges rest indeg'
    if d = 1 then (r.1, v :: r.2) else r

theorem getD_out {l : List Nat} {i : Nat} (h : l.length ≤ i) : l.getD i 0 = 0 := by
  rw [List.getD_eq_getElem?_getD, List.getElem?_eq_none h]
  rfl

theorem getD_set (l : List Nat) (i j a : Nat) :
    (l.set i a).getD j 0 = if i = j ∧ i < l.length then a else l.getD j 0 := by
  by_cases hij : i = j
  · subst hij
    by_cases hi : i < l.length
    · rw [List.getD_eq_getElem?_getD, List.getElem?_set]
      simp [hi]
    · rw [List.set_eq_of_length_le (Nat.le_of_not_lt hi)]
      simp [hi]
  · rw [List.getD_eq_getElem?_getD, List.getElem?_set]
    simp [hij, List.getD_eq_getElem?_getD]

theorem processEdges_cons_fst (v : Nat) (rest : List Nat) (indeg : List Nat) :
    (processEdges (v :: rest) indeg).1 =
      (processEdges rest (indeg.set v (indeg.getD v 0 - 1))).1 := by
  rw [show processEdges (v :: rest) indeg =
      (let d := indeg.getD v 0
       let indeg2 := indeg.set v (d - 1)
       let r := processEdges rest indeg2
       if d = 1 then (r.1, v :: r.2) else r) from rfl]
  dsimp only
  split <;> rfl

theorem processEdges_cons_snd (v : Nat) (rest : List Nat) (indeg : List Nat) :
    (processEdges (v :: rest) indeg).2 =
      if indeg.getD v 0 = 1 then
        v :: (processEdges rest (indeg.set v (indeg.getD v 0 - 1))).2
      else (processEdges rest (indeg.set v (indeg.getD v 0 - 1))).2 := by
  rw [show processEdges (v :: rest) indeg =
      (let d := indeg.getD v 0
       let indeg2 := indeg.set v (d - 1)
       let r := processEdges rest indeg2
       if d = 1 then (r.1, v :: r.2) else r) from rfl]
  dsimp only
  split <;> rfl

theorem processEdges_length (targets : List Nat) (indeg : List Nat) :
    (processEdges targets indeg).1.length = indeg.length := by
  induction targets generalizing indeg with
  | nil => rfl
  | cons v rest ih =>
    rw [processEdges_cons_fst, ih, List.length_set]

theorem processEdges_getD (targets : List Nat) (indeg : List Nat) (w : Nat) :
    (processEdges targets indeg).1.getD w 0 =
      indeg.getD w 0 - targets.count w := by
  induction targets generalizing indeg with
  | nil => simp [processEdges]
  | cons v rest ih =>
    rw [processEdges_cons_fst, ih, getD_set]
    by_cases hvw : v = w
    · subst hvw
      rw [List.count_cons_self]
      by_cases hv : v < indeg.length
      · rw [if_pos (⟨rfl, hv⟩ : v = v ∧ v < indeg.length)]
        omega
      · have h0 : indeg.getD v 0 = 0 := getD_out (by omega)
        rw [if_neg (fun h => hv h.2)]
        omega
    · have hcc : (v :: rest).count w = rest.count w := by
        rw [List.count_cons]
        simp [beq_iff_eq, hvw]
      rw [hcc, if_neg (fun h => hvw h.1)]

theorem processEdges_count (targets : List Nat) (indeg : List Nat) (w : Nat) :
    (processEdges targets indeg).2.count w =
      if 1 ≤ indeg.getD w 0 ∧ indeg.getD w 0 ≤ targets.count w then 1 else 0 := by
  induction targets generalizing indeg with
  | nil =>
    simp only [processEdges, List.count_nil, Nat.le_zero]
    split
    · omega
    · rfl
  | cons v rest ih =>
    have key := ih (indeg.set v (indeg.getD v 0 - 1))
    rw [getD_set] at key
    rw [processEdges_cons_snd]
    by_cases hvw : v = w
    · subst hvw
      rw [List.count_cons_self]
      by_cases hv : v < indeg.length
      · rw [if_pos (⟨rfl, hv⟩ : v = v ∧ v < indeg.length)] at key
        by_cases hd1 : indeg.getD v 0 = 1
        · rw [if_pos hd1, List.count_cons_self, key, hd1]
          simp
        · rw [if_neg hd1, key]
          split <;> split <;> omega
      · have h0 : indeg.getD v 0 = 0 := getD_out (by omega)
        have hcneg : ¬ (v = v ∧ v < indeg.length) := fun h => hv h.2
        rw [if_neg hcneg] at key
        have hd1 : ¬ indeg.getD v 0 = 1 := by omega
        rw [if_neg hd1, key, h0]
        simp
    · have hcc : (v :: rest).count w = rest.count w := by
        rw [List.count_cons]
        simp [beq_iff_eq, hvw]
      rw [hcc]
      have hcneg : ¬ (v = w ∧ v < indeg.length) := fun h => hvw h.1
      rw [if_neg hcneg] at key
      by_cases hd1 : indeg.getD v 0 = 1
      · rw [if_pos hd1, List.count_cons, key]
        simp [beq_iff_eq, hvw]
      · rw [if_neg hd1, key]

theorem processEdges_measure (targets : List Nat) (indeg : List Nat) :
    (processEdges targets indeg).1.sum + (processEdges targets indeg).2.length ≤
      indeg.sum := by
  induction targets generalizing indeg with
  | nil => simp [processEdges]
  | cons v rest ih =>
    have hm := ih (indeg.set v (indeg.getD v 0 - 1))
    rw [processEdges_cons_fst, processEdges_cons_snd]
    have hsum : (indeg.set v (indeg.getD v 0 - 1)).sum +
        (if indeg.getD v 0 = 1 then 1 else 0) ≤ indeg.sum := by
      by_cases hv : v < indeg.length
      · rw [List.sum_set]
        have hdec : indeg.sum = (indeg.take v).sum + indeg.getD v 0 +
            (indeg.drop (v + 1)).sum := by
          conv_lhs => rw [← List.take_append_drop v indeg]
          rw [List.sum_append, List.drop_eq_getElem_cons hv, List.sum_cons]
          rw [List.getD_eq_getElem?_getD, List.getElem?_eq_getElem hv]
          simp [Nat.add_assoc]
        rw [if_pos hv]
        split <;> omega
      · rw [List.set_eq_of_length_le (Nat.le_of_not_lt hv)]
        have h0 : indeg.getD v 0 = 0 := getD_out (by omega)
        have hne : ¬ indeg.getD v 0 = 1 := by omega
        rw [if_neg hne]
        omega
    by_cases hd1 : indeg.getD v 0 = 1
    · rw [if_pos hd1]
      rw [if_pos hd1] at hsum
      simp only [List.length_cons]
      omega
    · rw [if_neg hd1]
      rw [if_neg hd1] at hsum
      omega

theorem kahn_measure_step (adj_u : List Nat) (indeg : List Nat) (rest : List Nat) :
    (processEdges adj_u indeg).1.sum + (rest ++ (processEdges adj_u indeg).2).length <
      indeg.sum + (rest.length + 1) := by
  simp only [List.length_append]
  have := processEdges_measure adj_u indeg
  omega

/-- The main Kahn loop (graph.hpp:77-86), with the FIFO queue explicit:
each iteration pops the queue head, appends it to the order, processes
its out-edges, and appends the newly-free nodes to the queue. -/
def kahnLoop (adj : List (List Nat)) (indeg : List Nat) (queue : List Nat) :
    List Nat :=
  match queue with
  | [] => []
  | u :: rest =>
    let r := processEdges (adj.getD u []) indeg
    u :: kahnLoop adj r.1 (rest ++ r.2)
  termination_by indeg.sum + queue.length
  decreasing_by
    simp only [List.length_cons]
    exact kahn_measure_step _ _ _

/-- `Graph::topological_sort` (graph.hpp:63-93). -/
def Graph.topological_sort (g : Graph) : LoomResult (List Nat) :=
  let n := g.adj.length
  let indeg := (List.range n).map (fun v => inDeg g.adj v)
  let queue := (List.range n).filter (fun v => indeg.getD v 0 == 0)
  let order := kahnLoop g.adj indeg queue
  if order.length = n then .ok order else .error ⟨.Cycle⟩

-- ---------------------------------------------------------------------------
-- Invariant of the Kahn loop
-- ---------------------------------------------------------------------------

/-- Extracting one passing element from a nodup list's filter. -/
theorem filter_perm_extract {l : List Nat} {p : Nat → Bool} {a : Nat}
    (hn : l.Nodup) (ha : a ∈ l) (hp : p a = true) :
    (l.filter p).Perm (a :: l.filter (fun x => p x && decide (x ≠ a))) := by
  induction l with
  | nil => cases ha
  | cons b rest ih =>
    rcases List.mem_cons.mp ha with hb | hmem
    · subst hb
      have hanr : a ∉ rest := (List.nodup_cons.mp hn).1
      rw [List.filter_cons, List.filter_cons]
      simp only [hp, if_pos]
      have : decide (a ≠ a) = false := by simp
      rw [this]
      simp only [Bool.and_false, Bool.false_eq_true, if_false]
      have : rest.filter (fun x => p x && decide (x ≠ a)) = rest.filter p :=
        List.filter_congr (fun x hx => by
          have : decide (x ≠ a) = true := by
            simp only [decide_eq_true_eq]
            intro he
            exact hanr (he ▸ hx)
          rw [this, Bool.and_true])
      rw [this]
    · have hba : b ≠ a := by
        intro he
        exact (List.nodup_cons.mp hn).1 (he ▸ hmem)
      have ihh := ih (List.nodup_cons.mp hn).2 hmem
      rw [List.filter_cons, List.filter_cons]
      cases hpb : p b with
      | true =>
        have : decide (b ≠ a) = true := by simp [hba]
        simp only [if_pos, this, Bool.and_true]
        exact (ihh.cons b).trans (List.Perm.swap a b _)
      | false =>
        simp only [Bool.false_eq_true, if_false, Bool.false_and]
        exact ihh

/-- Popping `q` splits the remaining in-degree into `q`'s contribution
and the rest. -/
theorem remDeg_pop {adj : List (List Nat)} {popped : List Nat} {q : Nat}
    (hq : q < adj.length) (hqp : q ∉ popped) (v : Nat) :
    remDeg adj popped v =
      (adj.getD q []).count v + remDeg adj (popped ++ [q]) v := by
  unfold remDeg
  have hperm := filter_perm_extract (l := List.range adj.length)
    (p := fun u => decide (u ∉ popped)) (a := q)
    (List.nodup_range _) (List.mem_range.mpr hq) (by simp [hqp])
  have hsum := (hperm.map (fun u => (adj.getD u []).count v)).sum_eq
  rw [hsum, List.map_cons, List.sum_cons]
  congr 1
  have : (List.range adj.length).filter
        (fun x => decide (x ∉ popped) && decide (x ≠ q)) =
      (List.range adj.length).filter (fun u => decide (u ∉ popped ++ [q])) :=
    List.filter_congr (fun x _ => by
      by_cases h₁ : x ∈ popped <;> by_cases h₂ : x = q <;>
        simp [h₁, h₂, List.mem_append])
  rw [this]

/-- If every edge source of `v` is popped, its remaining in-degree
vanishes. -/
theorem remDeg_zero_of_closed {adj : List (List Nat)} {popped : List Nat}
    {v : Nat} (h : ∀ u, edgeRel adj u v → u ∈ popped) :
    remDeg adj popped v = 0 := by
  unfold remDeg
  apply List.sum_eq_zero
  intro x hx
  obtain ⟨u, hu, hxu⟩ := List.mem_map.mp hx
  obtain ⟨_, hnp⟩ := List.mem_filter.mp hu
  by_contra hne
  have hvm : v ∈ adj.getD u [] := by
    rw [← hxu] at hne
    exact List.count_pos_iff.mp (Nat.pos_of_ne_zero hne)
  have := h u hvm
  simp at hnp
  exact hnp this

/-- A vanished remaining in-degree means every edge source is popped. -/
theorem sources_popped_of_remDeg_zero {adj : List (List Nat)} {popped : List Nat}
    {v : Nat} (h : remDeg adj popped v = 0) :
    ∀ u, edgeRel adj u v → u ∈ popped := by
  intro u hedge
  unfold edgeRel at hedge
  by_cases hu : u < adj.length
  · by_contra hup
    have hmem : u ∈ (List.range adj.length).filter (fun w => decide (w ∉ popped)) :=
      List.mem_filter.mpr ⟨List.mem_range.mpr hu, by simp [hup]⟩
    have hx : (adj.getD u []).count v ∈
        (((List.range adj.length).filter (fun w => decide (w ∉ popped))).map
          (fun w => (adj.getD w []).count v)) :=
      List.mem_map.mpr ⟨u, hmem, rfl⟩
    have := List.sum_eq_zero_iff.mp h _ hx
    rw [List.count_eq_zero] at this
    exact this hedge
  · rw [List.getD_eq_getElem?_getD, List.getElem?_eq_none (by omega)] at hedge
    cases hedge

/-- The loop invariant of Kahn's algorithm relating the mutable
`in_deg` array, the queue, and the already-popped order. -/
structure KahnInv (adj : List (List Nat)) (indeg queue popped : List Nat) : Prop where
  ilen : indeg.length = adj.length
  pnodup : popped.Nodup
  qnodup : queue.Nodup
  pq : ∀ v ∈ popped, v ∉ queue
  ideg : ∀ v, indeg.getD v 0 = remDeg adj popped v
  qmem : ∀ v, v ∈ queue ↔ (v < adj.length ∧ v ∉ popped ∧ remDeg adj popped v = 0)
  closed : ∀ v ∈ popped, ∀ u, edgeRel adj u v → u ∈ popped

theorem kahnLoop_nil (adj : List (List Nat)) (indeg : List Nat) :
    kahnLoop adj indeg [] = [] := by
  rw [kahnLoop]

theorem kahnLoop_cons (adj : List (List Nat)) (indeg : List Nat) (u : Nat)
    (rest : List Nat) :
    kahnLoop adj indeg (u :: rest) =
      u :: kahnLoop adj (processEdges (adj.getD u []) indeg).1
        (rest ++ (processEdges (adj.getD u []) indeg).2) := by
  rw [kahnLoop]

/-- Main induction for the Kahn loop: under the loop invariant, the
produced order extends `popped` without duplicates, contains only fresh
nodes, places every node after its yet-unpopped predecessors, and every
uncovered node retains an uncovered predecessor. -/
theorem kahn_main (adj : List (List Nat))
    (hwf : ∀ l ∈ adj, ∀ v ∈ l, v < adj.length) (N : Nat) :
    ∀ (indeg queue popped : List Nat),
      indeg.sum + queue.length = N →
      KahnInv adj indeg queue popped →
      ((popped ++ kahnLoop adj indeg queue).Nodup ∧
       (∀ v ∈ kahnLoop adj indeg queue, v < adj.length ∧ v ∉ popped) ∧
       (∀ pre v post, kahnLoop adj indeg queue = pre ++ v :: post →
         ∀ w, edgeRel adj w v → w ∈ popped ∨ w ∈ pre) ∧
       (∀ v, v < adj.length → v ∉ popped → v ∉ kahnLoop adj indeg queue →
         ∃ w, edgeRel adj w v ∧ w ∉ popped ∧ w ∉ kahnLoop adj indeg queue)) := by
  induction N using Nat.strong_induction_on with
  | _ N IH =>
    intro indeg queue popped hN hinv
    cases queue with
    | nil =>
      rw [kahnLoop_nil]
      refine ⟨by simpa using hinv.pnodup, ?_, ?_, ?_⟩
      · intro v hv
        exact absurd hv (List.not_mem_nil v)
      · intro pre v post heq w hw
        rw [eq_comm, List.append_eq_nil] at heq
        exact absurd heq.2 (List.cons_ne_nil v post)
      · intro v h1 h2 h3
        by_cases hrd : remDeg adj popped v = 0
        · exact absurd ((hinv.qmem v).mpr ⟨h1, h2, hrd⟩) (List.not_mem_nil v)
        · have hnall : ¬ ∀ w, edgeRel adj w v → w ∈ popped :=
            fun hall => hrd (remDeg_zero_of_closed hall)
          push_neg at hnall
          obtain ⟨w, hw1, hw2⟩ := hnall
          exact ⟨w, hw1, hw2, List.not_mem_nil w⟩
    | cons u rest =>
      obtain ⟨hun, hup, hurd⟩ := (hinv.qmem u).mp (List.mem_cons_self u rest)
      have hqn := List.nodup_cons.mp hinv.qnodup
      have htsmem : adj.getD u [] ∈ adj := by
        rw [List.getD_eq_getElem?_getD, List.getElem?_eq_getElem hun,
          Option.getD_some]
        exact List.getElem_mem hun
      have htslt : ∀ v ∈ adj.getD u [], v < adj.length := hwf _ htsmem
      have hpop : ∀ v, remDeg adj popped v =
          (adj.getD u []).count v + remDeg adj (popped ++ [u]) v :=
        fun v => remDeg_pop hun hup v
      have hdeg' : ∀ v, (processEdges (adj.getD u []) indeg).1.getD v 0 =
          remDeg adj (popped ++ [u]) v := by
        intro v
        rw [processEdges_getD, hinv.ideg v]
        have := hpop v
        omega
      have hpush : ∀ v, v ∈ (processEdges (adj.getD u []) indeg).2 ↔
          (1 ≤ remDeg adj popped v ∧ remDeg adj (popped ++ [u]) v = 0) := by
        intro v
        have hc := processEdges_count (adj.getD u []) indeg v
        rw [hinv.ideg v] at hc
        have hp := hpop v
        constructor
        · intro hv
          have hpos : 0 < (processEdges (adj.getD u []) indeg).2.count v :=
            List.count_pos_iff.mpr hv
          rw [hc] at hpos
          by_cases hcond : 1 ≤ remDeg adj popped v ∧
              remDeg adj popped v ≤ (adj.getD u []).count v
          · obtain ⟨hc1, hc2⟩ := hcond
            exact ⟨hc1, by omega⟩
          · rw [if_neg hcond] at hpos
            exact absurd hpos (by omega)
        · rintro ⟨h1, h2⟩
          have hcond : 1 ≤ remDeg adj popped v ∧
              remDeg adj popped v ≤ (adj.getD u []).count v := ⟨h1, by omega⟩
          have hpos : 0 < (processEdges (adj.getD u []) indeg).2.count v := by
            rw [hc, if_pos hcond]
            omega
          exact List.count_pos_iff.mp hpos
      have hpushnodup : (processEdges (adj.getD u []) indeg).2.Nodup := by
        rw [List.nodup_iff_count_le_one]
        intro a
        rw [processEdges_count]
        split <;> omega
      have hpushlt : ∀ v ∈ (processEdges (adj.getD u []) indeg).2,
          v < adj.length := by
        intro v hv
        obtain ⟨h1, h2⟩ := (hpush v).mp hv
        have hp := hpop v
        exact htslt v (List.count_pos_iff.mp (by omega))
      have hpushnp : ∀ v ∈ (processEdges (adj.getD u []) indeg).2,
          v ∉ popped := by
        intro v hv hvp
        obtain ⟨h1, h2⟩ := (hpush v).mp hv
        have h0 : remDeg adj popped v = 0 :=
          remDeg_zero_of_closed (hinv.closed v hvp)
        omega
      have hpushneu : ∀ v ∈ (processEdges (adj.getD u []) indeg).2, v ≠ u := by
        intro v hv he
        obtain ⟨h1, h2⟩ := (hpush v).mp hv
        subst he
        omega
      have hinv' : KahnInv adj (processEdges (adj.getD u []) indeg).1
          (rest ++ (processEdges (adj.getD u []) indeg).2) (popped ++ [u]) := by
        constructor
        · rw [processEdges_length]
          exact hinv.ilen
        · rw [List.nodup_append]
          refine ⟨hinv.pnodup, List.nodup_singleton u, ?_⟩
          intro a ha hb
          rw [List.mem_singleton] at hb
          subst hb
          exact hup ha
        · rw [List.nodup_append]
          refine ⟨hqn.2, hpushnodup, ?_⟩
          intro a ha hb
          obtain ⟨h1, h2⟩ := (hpush a).mp hb
          have h0 : remDeg adj popped a = 0 :=
            ((hinv.qmem a).mp (List.mem_cons_of_mem u ha)).2.2
          omega
        · intro v hv hmem
          rcases List.mem_append.mp hmem with hr | hp2
          · rcases List.mem_append.mp hv with hvp | hvu
            · exact hinv.pq v hvp (List.mem_cons_of_mem u hr)
            · rw [List.mem_singleton] at hvu
              subst hvu
              exact hqn.1 hr
          · rcases List.mem_append.mp hv with hvp | hvu
            · exact hpushnp v hp2 hvp
            · rw [List.mem_singleton] at hvu
              subst hvu
              exact hpushneu v hp2 rfl
        · exact hdeg'
        · intro v
          constructor
          · intro hmem
            rcases List.mem_append.mp hmem with hr | hp2
            · obtain ⟨h1, h2, h3⟩ := (hinv.qmem v).mp (List.mem_cons_of_mem u hr)
              have hp := hpop v
              refine ⟨h1, ?_, by omega⟩
              intro hm
              rcases List.mem_append.mp hm with hm2 | hm2
              · exact h2 hm2
              · rw [List.mem_singleton] at hm2
                subst hm2
                exact hqn.1 hr
            · obtain ⟨h1, h2⟩ := (hpush v).mp hp2
              refine ⟨hpushlt v hp2, ?_, h2⟩
              intro hm
              rcases List.mem_append.mp hm with hm2 | hm2
              · exact hpushnp v hp2 hm2
              · rw [List.mem_singleton] at hm2
                subst hm2
                exact hpushneu v hp2 rfl
          · rintro ⟨h1, h2, h3⟩
            have hvnp : v ∉ popped := fun hm => h2 (List.mem_append.mpr (Or.inl hm))
            have hvnu : v ≠ u := fun he =>
              h2 (List.mem_append.mpr (Or.inr (List.mem_singleton.mpr he)))
            by_cases hrd : remDeg adj popped v = 0
            · have hq := (hinv.qmem v).mpr ⟨h1, hvnp, hrd⟩
              rcases List.mem_cons.mp hq with he | hr
              · exact absurd he hvnu
              · exact List.mem_append.mpr (Or.inl hr)
            · exact List.mem_append.mpr (Or.inr ((hpush v).mpr ⟨by omega, h3⟩))
        · intro v hv w hw
          rcases List.mem_append.mp hv with hvp | hvu
          · exact List.mem_append.mpr (Or.inl (hinv.closed v hvp w hw))
          · rw [List.mem_singleton] at hvu
            subst hvu
            exact List.mem_append.mpr
              (Or.inl (sources_popped_of_remDeg_zero hurd w hw))
      have hmeas : (processEdges (adj.getD u []) indeg).1.sum +
          (rest ++ (processEdges (adj.getD u []) indeg).2).length < N := by
        rw [← hN]
        simp only [List.length_cons]
        exact kahn_measure_step _ _ _
      obtain ⟨ca, cb, cc, cd⟩ := IH _ hmeas _ _ _ rfl hinv'
      rw [kahnLoop_cons]
      refine ⟨?_, ?_, ?_, ?_⟩
      · rw [show popped ++ u :: kahnLoop adj (processEdges (adj.getD u []) indeg).1
              (rest ++ (processEdges (adj.getD u []) indeg).2) =
            (popped ++ [u]) ++ kahnLoop adj (processEdges (adj.getD u []) indeg).1
              (rest ++ (processEdges (adj.getD u []) indeg).2) from by
          rw [List.append_assoc, List.singleton_append]]
        exact ca
      · intro v hv
        rcases List.mem_cons.mp hv with he | hm
        · subst he
          exact ⟨hun, hup⟩
        · obtain ⟨h1, h2⟩ := cb v hm
          exact ⟨h1, fun hp2 => h2 (List.mem_append.mpr (Or.inl hp2))⟩
      · intro pre v post heq w hw
        cases pre with
        | nil =>
          rw [List.nil_append] at heq
          injection heq with h1 h2
          subst h1
          exact Or.inl (sources_popped_of_remDeg_zero hurd w hw)
        | cons p0 pre2 =>
          rw [List.cons_append] at heq
          injection heq with h1 h2
          subst h1
          rcases cc pre2 v post h2 w hw with hp2 | hp2
          · rcases List.mem_append.mp hp2 with hp3 | hp3
            · exact Or.inl hp3
            · rw [List.mem_singleton] at hp3
              subst hp3
              exact Or.inr (List.mem_cons_self _ _)
          · exact Or.inr (List.mem_cons_of_mem _ hp2)
      · intro v h1 h2 h3
        have hvne : v ≠ u := by
          intro he
          exact h3 (by rw [he]; exact List.mem_cons_self u _)
        have h3' : v ∉ kahnLoop adj (processEdges (adj.getD u []) indeg).1
            (rest ++ (processEdges (adj.getD u []) indeg).2) :=
          fun hm => h3 (List.mem_cons_of_mem u hm)
        have h2' : v ∉ popped ++ [u] := by
          intro hm
          rcases List.mem_append.mp hm with hm2 | hm2
          · exact h2 hm2
          · rw [List.mem_singleton] at hm2
            exact hvne hm2
        obtain ⟨w, hw1, hw2, hw3⟩ := cd v h1 h2' h3'
        refine ⟨w, hw1, fun hm => hw2 (List.mem_append.mpr (Or.inl hm)), ?_⟩
        intro hm
        rcases List.mem_cons.mp hm with he | hm2
        · exact hw2 (List.mem_append.mpr (Or.inr (List.mem_singleton.mpr he)))
        · exact hw3 hm2

theorem remDeg_nil (adj : List (List Nat)) (v : Nat) :
    remDeg adj [] v = inDeg adj v := by
  unfold remDeg inDeg
  congr 1
  congr 1
  apply List.filter_eq_self.mpr
  intro a _
  simp

theorem getD_map_range (n : Nat) (f : Nat → Nat) (v : Nat) (hv : v < n) :
    ((List.range n).map f).getD v 0 = f v := by
  rw [List.getD_eq_getElem?_getD, List.getElem?_map, List.getElem?_range hv]
  rfl

theorem getD_map_range_out (n : Nat) (f : Nat → Nat) (v : Nat) (hv : n ≤ v) :
    ((List.range n).map f).getD v 0 = 0 := by
  apply getD_out
  simpa using hv

theorem inDeg_out (adj : List (List Nat))
    (hwf : ∀ l ∈ adj, ∀ v ∈ l, v < adj.length)
    (v : Nat) (hv : adj.length ≤ v) : inDeg adj v = 0 := by
  unfold inDeg
  apply List.sum_eq_zero
  intro x hx
  obtain ⟨u, hu, hxu⟩ := List.mem_map.mp hx
  rw [← hxu, List.count_eq_zero]
  intro hmem
  have hun : u < adj.length := List.mem_range.mp hu
  have hl : adj.getD u [] ∈ adj := by
    rw [List.getD_eq_getElem?_getD, List.getElem?_eq_getElem hun, Option.getD_some]
    exact List.getElem_mem hun
  have := hwf _ hl v hmem
  omega

/-- The state entering the Kahn loop (graph.hpp:66-75) satisfies the
loop invariant. -/
theorem kahn_initial (adj : List (List Nat))
    (hwf : ∀ l ∈ adj, ∀ v ∈ l, v < adj.length) :
    KahnInv adj ((List.range adj.length).map (fun v => inDeg adj v))
      ((List.range adj.length).filter
        (fun v => ((List.range adj.length).map (fun w => inDeg adj w)).getD v 0 == 0))
      [] := by
  constructor
  · simp
  · exact List.nodup_nil
  · exact List.Nodup.filter _ (List.nodup_range _)
  · intro v hv
    exact absurd hv (List.not_mem_nil v)
  · intro v
    rw [remDeg_nil]
    by_cases hv : v < adj.length
    · exact getD_map_range _ _ _ hv
    · rw [getD_map_range_out _ _ _ (Nat.le_of_not_lt hv),
        inDeg_out adj hwf v (Nat.le_of_not_lt hv)]
  · intro v
    constructor
    · intro hv
      obtain ⟨hvr, hvc⟩ := List.mem_filter.mp hv
      have hvn := List.mem_range.mp hvr
      refine ⟨hvn, List.not_mem_nil v, ?_⟩
      simp only [beq_iff_eq] at hvc
      rw [remDeg_nil, ← getD_map_range adj.length (fun w => inDeg adj w) v hvn]
      exact hvc
    · rintro ⟨h1, h2, h3⟩
      apply List.mem_filter.mpr
      refine ⟨List.mem_range.mpr h1, ?_⟩
      rw [remDeg_nil] at h3
      simp only [beq_iff_eq]
      rw [getD_map_range _ _ _ h1]
      exact h3
  · intro v hv
    exact absurd hv (List.not_mem_nil v)

/-- The full run of the Kahn loop from the initial state: the order is
duplicate-free, contains only nodes, places every node after its listed
predecessors, and every missing node has a missing predecessor. -/
theorem kahn_run (adj : List (List Nat))
    (hwf : ∀ l ∈ adj, ∀ v ∈ l, v < adj.length) :
    ((kahnLoop adj ((List.range adj.length).map (fun v => inDeg adj v))
        ((List.range adj.length).filter
          (fun v => ((List.range adj.length).map
            (fun w => inDeg adj w)).getD v 0 == 0))).Nodup ∧
     (∀ v ∈ kahnLoop adj ((List.range adj.length).map (fun v => inDeg adj v))
        ((List.range adj.length).filter
          (fun v => ((List.range adj.length).map
            (fun w => inDeg adj w)).getD v 0 == 0)), v < adj.length) ∧
     (∀ pre v post, kahnLoop adj ((List.range adj.length).map (fun v => inDeg adj v))
        ((List.range adj.length).filter
          (fun v => ((List.range adj.length).map
            (fun w => inDeg adj w)).getD v 0 == 0)) = pre ++ v :: post →
        ∀ w, edgeRel adj w v → w ∈ pre) ∧
     (∀ v, v < adj.length →
        v ∉ kahnLoop adj ((List.range adj.length).map (fun v => inDeg adj v))
          ((List.range adj.length).filter
            (fun v => ((List.range adj.length).map
              (fun w => inDeg adj w)).getD v 0 == 0)) →
        ∃ w, edgeRel adj w v ∧
          w ∉ kahnLoop adj ((List.range adj.length).map (fun v => inDeg adj v))
            ((List.range adj.length).filter
              (fun v => ((List.range adj.length).map
                (fun w => inDeg adj w)).getD v 0 == 0)))) := by
  obtain ⟨ca, cb, cc, cd⟩ :=
    kahn_main adj hwf _ _ _ [] rfl (kahn_initial adj hwf)
  refine ⟨by simpa using ca, fun v hv => (cb v hv).1, ?_, ?_⟩
  · intro pre v post heq w hw
    rcases cc pre v post heq w hw with h | h
    · exact absurd h (List.not_mem_nil w)
    · exact h
  · intro v h1 h2
    obtain ⟨w, hw1, _, hw3⟩ := cd v h1 (List.not_mem_nil v) h2
    exact ⟨w, hw1, hw3⟩

/-- `topological_sort` either succeeds with a complete well-ordered
order, or fails with the Cycle error leaving an incompletable order. -/
theorem topo_cases (g : Graph) (hwf : g.WF) :
    (∃ order, g.topological_sort = .ok order ∧ order.Nodup ∧
       (∀ v ∈ order, v < g.adj.length) ∧ order.length = g.adj.length ∧
       (∀ pre v post, order = pre ++ v :: post →
         ∀ w, edgeRel g.adj w v → w ∈ pre)) ∨
    (g.topological_sort = .error ⟨.Cycle⟩ ∧ ∃ order : List Nat, order.Nodup ∧
       (∀ v ∈ order, v < g.adj.length) ∧ order.length ≠ g.adj.length ∧
       (∀ v, v < g.adj.length → v ∉ order →
         ∃ w, edgeRel g.adj w v ∧ w ∉ order)) := by
  obtain ⟨hnd, hlt, hord, hcov⟩ := kahn_run g.adj hwf
  unfold Graph.topological_sort
  dsimp only
  split_ifs with hlen
  · exact Or.inl ⟨_, rfl, hnd, hlt, hlen, hord⟩
  · exact Or.inr ⟨rfl, _, hnd, hlt, hlen, hcov⟩

theorem indexOf_middle {pre post : List Nat} {v : Nat} (h : v ∉ pre) :
    (pre ++ v :: post).indexOf v = pre.length := by
  induction pre with
  | nil => simp [List.indexOf_cons_self]
  | cons a rest ih =>
    have hav : a ≠ v := fun he => h (he ▸ List.mem_cons_self a rest)
    rw [List.cons_append, List.indexOf_cons_ne _ hav,
      ih (fun hm => h (List.mem_cons_of_mem a hm))]
    rfl

/-- A complete order in which every node's predecessors sit in the
strict prefix before it is a permutation of the nodes respecting every
edge in `indexOf` position. -/
theorem order_sound (adj : List (List Nat))
    (hwf : ∀ l ∈ adj, ∀ v ∈ l, v < adj.length) (order : List Nat)
    (hnd : order.Nodup) (hlt : ∀ v ∈ order, v < adj.length)
    (hlen : order.length = adj.length)
    (hord : ∀ pre v post, order = pre ++ v :: post →
      ∀ w, edgeRel adj w v → w ∈ pre) :
    order.Perm (List.range adj.length) ∧
    ∀ u v, edgeRel adj u v → order.indexOf u < order.indexOf v := by
  have hsub := List.subperm_of_subset hnd
    (fun v hv => List.mem_range.mpr (hlt v hv))
  have hperm := hsub.perm_of_length_le (by simp [hlen])
  refine ⟨hperm, ?_⟩
  intro u v he
  have hedgeu : u < adj.length := by
    by_contra hge
    unfold edgeRel at he
    rw [List.getD_eq_getElem?_getD, List.getElem?_eq_none (by omega)] at he
    simp at he
  have hlistmem : adj.getD u [] ∈ adj := by
    rw [List.getD_eq_getElem?_getD, List.getElem?_eq_getElem hedgeu,
      Option.getD_some]
    exact List.getElem_mem hedgeu
  have hvn : v < adj.length := hwf _ hlistmem v he
  have hvord : v ∈ order := hperm.mem_iff.mpr (List.mem_range.mpr hvn)
  obtain ⟨pre, post, hdec⟩ := List.append_of_mem hvord
  have hnd2 := hnd
  rw [hdec] at hnd2
  have hvnp : v ∉ pre := fun hvp =>
    (List.nodup_append.mp hnd2).2.2 hvp (List.mem_cons_self v post)
  have hupre : u ∈ pre := hord pre v post hdec u he
  rw [hdec, indexOf_middle hvnp, List.indexOf_append_of_mem hupre]
  exact List.indexOf_lt_length.mpr hupre

/-- An order respecting every edge in position rules out cycles. -/
theorem acyclic_of_order (adj : List (List Nat)) (order : List Nat)
    (hord : ∀ u v, edgeRel adj u v → order.indexOf u < order.indexOf v) :
    ¬ ∃ v, Relation.TransGen (edgeRel adj) v v := by
  rintro ⟨v, htg⟩
  have hmono : ∀ a b, Relation.TransGen (edgeRel adj) a b →
      order.indexOf a < order.indexOf b := by
    intro a b h
    induction h with
    | single h1 => exact hord _ _ h1
    | tail _ h2 ih => exact Nat.lt_trans ih (hord _ _ h2)
  exact Nat.lt_irrefl _ (hmono v v htg)

/-- If the produced order misses some node while every missing node
keeps a missing predecessor, following predecessors forever must repeat
a node: the graph has a cycle. -/
theorem cyclic_of_incomplete (adj : List (List Nat)) (order : List Nat)
    (hnd : order.Nodup) (hlt : ∀ v ∈ order, v < adj.length)
    (hlen : order.length ≠ adj.length)
    (hcov : ∀ v, v < adj.length → v ∉ order →
      ∃ w, edgeRel adj w v ∧ w ∉ order) :
    ∃ v, Relation.TransGen (edgeRel adj) v v := by
  classical
  have hsub := List.subperm_of_subset hnd
    (fun v hv => List.mem_range.mpr (hlt v hv))
  have hlenle : order.length ≤ adj.length := by simpa using hsub.length_le
  have hne : ∃ v, v < adj.length ∧ v ∉ order := by
    by_contra hno
    push_neg at hno
    have hsub2 : List.range adj.length ⊆ order :=
      fun v hv => hno v (List.mem_range.mp hv)
    have hge := (List.subperm_of_subset (List.nodup_range adj.length)
      hsub2).length_le
    simp only [List.length_range] at hge
    exact hlen (by omega)
  obtain ⟨v0, hv0n, hv0⟩ := hne
  let f : Nat → Nat := fun v =>
    if h : v < adj.length ∧ v ∉ order then Classical.choose (hcov v h.1 h.2)
    else 0
  have hf : ∀ v (h1 : v < adj.length) (h2 : v ∉ order),
      edgeRel adj (f v) v ∧ f v ∉ order ∧ f v < adj.length := by
    intro v h1 h2
    have hfv : f v = Classical.choose (hcov v h1 h2) := dif_pos ⟨h1, h2⟩
    obtain ⟨hs1, hs2⟩ := Classical.choose_spec (hcov v h1 h2)
    rw [← hfv] at hs1 hs2
    refine ⟨hs1, hs2, ?_⟩
    by_contra hge
    unfold edgeRel at hs1
    rw [List.getD_eq_getElem?_getD, List.getElem?_eq_none (by omega)] at hs1
    simp at hs1
  have hiter : ∀ k, f^[k] v0 < adj.length ∧ f^[k] v0 ∉ order := by
    intro k
    induction k with
    | zero => exact ⟨hv0n, hv0⟩
    | succ k ih =>
      rw [Function.iterate_succ_apply']
      obtain ⟨_, h2, h3⟩ := hf _ ih.1 ih.2
      exact ⟨h3, h2⟩
  have hchain : ∀ i k, 1 ≤ k →
      Relation.TransGen (edgeRel adj) (f^[k + i] v0) (f^[i] v0) := by
    intro i k hk
    induction k with
    | zero => omega
    | succ k ih =>
      by_cases hk0 : k = 0
      · subst hk0
        rw [show 1 + i = i + 1 from by omega, Function.iterate_succ_apply']
        exact Relation.TransGen.single (hf _ (hiter i).1 (hiter i).2).1
      · have htl := ih (by omega)
        rw [show k + 1 + i = (k + i) + 1 from by omega,
          Function.iterate_succ_apply']
        exact Relation.TransGen.head (hf _ (hiter (k + i)).1 (hiter (k + i)).2).1
          htl
  have hmaps : ∀ i ∈ Finset.range (adj.length + 1),
      f^[i] v0 ∈ Finset.range adj.length := by
    intro i _
    exact Finset.mem_range.mpr (hiter i).1
  have hcard : (Finset.range adj.length).card <
      (Finset.range (adj.length + 1)).card := by
    simp
  obtain ⟨i, hi, j, hj, hij, heq2⟩ :=
    Finset.exists_ne_map_eq_of_card_lt_of_maps_to hcard hmaps
  rcases Nat.lt_or_ge i j with hlt2 | hge2
  · refine ⟨f^[i] v0, ?_⟩
    have hch := hchain i (j - i) (by omega)
    rw [show j - i + i = j from by omega] at hch
    rw [← heq2] at hch
    exact hch
  · have hlt3 : j < i := by omega
    refine ⟨f^[j] v0, ?_⟩
    have hch := hchain j (i - j) (by omega)
    rw [show i - j + j = i from by omega] at hch
    rw [heq2] at hch
    exact hch

/-- C3: on a well-formed graph, `Graph::topological_sort` returns the
Cycle error exactly when the graph contains a directed cycle; and any
successful result is a permutation of all nodes in which, for every
edge `u → v`, `u` appears strictly before `v` (every node is placed
after all of its predecessors). -/
theorem c3_topological_sort (g : Graph) (hwf : g.WF) :
    (g.topological_sort = .error ⟨.Cycle⟩ ↔ g.IsCyclic) ∧
    (∀ order, g.topological_sort = .ok order →
      order.Perm (List.range g.adj.length) ∧
      ∀ u v, edgeRel g.adj u v → order.indexOf u < order.indexOf v) := by
  rcases topo_cases g hwf with ⟨order, hok, hnd, hlt, hlen, hord⟩ |
    ⟨herr, order, hnd, hlt, hlen, hcov⟩
  · obtain ⟨hperm, hidx⟩ := order_sound g.adj hwf order hnd hlt hlen hord
    constructor
    · constructor
      · intro he
        rw [hok] at he
        simp at he
      · intro hcyc
        exact absurd hcyc (acyclic_of_order g.adj order hidx)
    · intro order2 hok2
      rw [hok] at hok2
      injection hok2 with h
      subst h
      exact ⟨hperm, hidx⟩
  · have hcyc : g.IsCyclic :=
      cyclic_of_incomplete g.adj order hnd hlt hlen hcov
    refine ⟨⟨fun _ => hcyc, fun _ => herr⟩, ?_⟩
    intro order2 hok2
    rw [herr] at hok2
    simp at hok2

-- ---------------------------------------------------------------------------
-- ParseResult binary serialization (build_cache.cpp:19-396)
--
-- Buffers and C++ byte strings are `List Nat` of byte values; C++ `int`
-- fields are `Int`; enum kinds are their `Nat` byte values.
-- ---------------------------------------------------------------------------

/-- `SourcePos` (token.hpp:9-13). -/
structure SourcePos where
  file : List Nat
  line : Int
  col : Int
  deriving DecidableEq, Repr

/-- `PortDecl` (ir.hpp). -/
structure PortDecl where
  name : List Nat
  direction : Nat
  type_text : List Nat
  pos : SourcePos
  deriving DecidableEq, Repr

/-- `ParamDecl` (ir.hpp). -/
structure ParamDecl where
  name : List Nat
  default_text : List Nat
  is_localparam : Bool
  pos : SourcePos
  deriving DecidableEq, Repr

/-- `Instantiation` (ir.hpp). -/
structure Instantiation where
  module_name : List Nat
  instance_name : List Nat
  is_parameterized : Bool
  pos : SourcePos
  deriving DecidableEq, Repr

/-- `ImportDecl` (ir.hpp). -/
structure ImportDecl where
  package_name : List Nat
  symbol : List Nat
  is_wildcard : Bool
  pos : SourcePos
  deriving DecidableEq, Repr

/-- `Assignment` (ir.hpp). -/
structure Assignment where
  is_blocking : Bool
  target : List Nat
  pos : SourcePos
  deriving DecidableEq, Repr

/-- `AlwaysBlock` (ir.hpp). -/
structure AlwaysBlock where
  kind : Nat
  label : List Nat
  assignments : List Assignment
  pos : SourcePos
  deriving DecidableEq, Repr

/-- `CaseStatement` (ir.hpp). -/
structure CaseStatement where
  kind : Nat
  has_default : Bool
  is_unique : Bool
  is_priority : Bool
  pos : SourcePos
  deriving DecidableEq, Repr

/-- `SignalDecl` (ir.hpp). -/
structure SignalDecl where
  name : List Nat
  type_text : List Nat
  pos : SourcePos
  deriving DecidableEq, Repr

/-- `GenerateBlock` (ir.hpp). -/
structure GenerateBlock where
  label : List Nat
  has_label : Bool
  pos : SourcePos
  deriving DecidableEq, Repr

/-- `LabeledBlock` (ir.hpp). -/
structure LabeledBlock where
  begin_label : List Nat
  end_label : List Nat
  labels_match : Bool
  pos : SourcePos
  deriving DecidableEq, Repr

/-- `DesignUnit` (ir.hpp). -/
structure DesignUnit where
  kind : Nat
  name : List Nat
  start_line : Int
  end_line : Int
  depth : Int
  ports : List PortDecl
  params : List ParamDecl
  instantiations : List Instantiation
  imports : List ImportDecl
  always_blocks : List AlwaysBlock
  case_statements : List CaseStatement
  signals : List SignalDecl
  generate_blocks : List GenerateBlock
  labeled_blocks : List LabeledBlock
  has_defparam : Bool
  pos : SourcePos
  deriving DecidableEq, Repr

/-- `Diagnostic` (ir.hpp). -/
structure Diagnostic where
  message : List Nat
  file : List Nat
  line : Int
  col : Int
  deriving DecidableEq, Repr

/-- `ParseResult` (ir.hpp). -/
structure ParseResult where
  units : List DesignUnit
  diagnostics : List Diagnostic
  deriving DecidableEq, Repr

/-- `ser::write_varint`'s loop body (build_cache.cpp:24-30), with
explicit fuel: one unit of fuel per iteration of `while (val >= 0x80)`.
`val & 0x7F` is `val % 128` and `| 0x80` on a 7-bit value is `+ 128`. -/
def varintAux : Nat → Nat → List Nat
  | 0, val => [val]
  | fuel + 1, val =>
    if val < 128 then [val]
    else (val % 128 + 128) :: varintAux fuel (val / 128)

/-- `ser::write_varint` (build_cache.cpp:24-30).  The C++ value is a
`uint64_t`, so ten iterations always reach `val < 0x80` (`128^10 = 2^70
> 2^64`); fuel 10 therefore never runs out on a representable value. -/
def write_varint (val : Nat) : List Nat := varintAux 10 val

/-- `ser::read_varint`'s loop (build_cache.cpp:32-43).  `b & 0x7F` is
`b % 128`, `(… ) << shift` is `* 2 ^ shift` and `val |= …` is addition
because the loop keeps every already-accumulated bit of `val` strictly
below position `shift`; `!(b & 0x80)` on a byte is `b < 128`. -/
def readVarintAux : List Nat → Nat → Nat → Option (Nat × List Nat)
  | [], _, _ => none
  | b :: rest, shift, acc =>
    let acc2 := acc + b % 128 * 2 ^ shift
    if b < 128 then some (acc2, rest)
    else if shift + 7 ≥ 64 then none
    else readVarintAux rest (shift + 7) acc2

def read_varint (bytes : List Nat) : Option (Nat × List Nat) :=
  readVarintAux bytes 0 0

/-- Sequencing of fallible reads: C++'s
`if (!read_x(p, end, out)) return error` chains, with the cursor `p`
made explicit as the returned remainder. -/
def rbind {α β : Type} (x : Option (α × List Nat))
    (f : α → List Nat → Option (β × List Nat)) : Option (β × List Nat) :=
  match x with
  | none => none
  | some (a, rest) => f a rest

/-- `ser::write_string` (build_cache.cpp:45-48). -/
def write_string (s : List Nat) : List Nat := write_varint s.length ++ s

/-- `ser::read_string` (build_cache.cpp:50-57); `p + len > end` is the
length check against the remaining bytes. -/
def read_string (bytes : List Nat) : Option (List Nat × List Nat) :=
  rbind (read_varint bytes) fun len rest =>
    if len ≤ rest.length then some (rest.take len, rest.drop len) else none

/-- `ser::write_bool` (build_cache.cpp:59-61). -/
def write_bool (b : Bool) : List Nat := [if b then 1 else 0]

/-- `ser::read_bool` (build_cache.cpp:63-67). -/
def read_bool : List Nat → Option (Bool × List Nat)
  | [] => none
  | b :: rest => some (b != 0, rest)

/-- `ser::write_byte` (build_cache.cpp:69-71). -/
def write_byte (v : Nat) : List Nat := [v]

/-- `ser::read_byte` (build_cache.cpp:73-77). -/
def read_byte : List Nat → Option (Nat × List Nat)
  | [] => none
  | b :: rest => some (b, rest)

/-- `static_cast<int>(static_cast<uint32_t>(raw))`
(build_cache.cpp:86): truncate to 32 bits, reinterpret as two's
complement. -/
def u32ToInt (n : Nat) : Int :=
  let m : Nat := n % 2 ^ 32
  if m < 2 ^ 31 then (m : Int) else (m : Int) - 2 ^ 32

/-- `ser::write_int` (build_cache.cpp:79-81):
`static_cast<uint64_t>(static_cast<uint32_t>(v))` is `v` mod `2^32`. -/
def write_int (v : Int) : List Nat := write_varint (v % 2 ^ 32).toNat

/-- `ser::read_int` (build_cache.cpp:83-88). -/
def read_int (bytes : List Nat) : Option (Int × List Nat) :=
  rbind (read_varint bytes) fun raw rest => some (u32ToInt raw, rest)

/-- `ser::write_pos` (build_cache.cpp:91-94): the `file` field is
deliberately not serialized. -/
def write_pos (pos : SourcePos) : List Nat :=
  write_int pos.line ++ write_int pos.col

/-- `ser::read_pos` (build_cache.cpp:96-98): fills `line` and `col` of
a default-constructed `SourcePos`, whose `file` is the empty string. -/
def read_pos (bytes : List Nat) : Option (SourcePos × List Nat) :=
  rbind (read_int bytes) fun line r1 =>
    rbind (read_int r1) fun col r2 =>
      some (⟨[], line, col⟩, r2)

/-- Count-prefixed sequence write: `write_varint(size)` followed by the
elements, the pattern of every `std::vector` in
`serialize_parse_result`. -/
def write_vec {α : Type} (wr : α → List Nat) (xs : List α) : List Nat :=
  write_varint xs.length ++ (xs.map wr).flatten

/-- Reading `n` consecutive elements into a resized vector, the pattern
of every vector in `deserialize_parse_result`. -/
def read_list {α : Type} (rd : List Nat → Option (α × List Nat)) :
    Nat → List Nat → Option (List α × List Nat)
  | 0, bytes => some ([], bytes)
  | n + 1, bytes =>
    rbind (rd bytes) fun x r1 =>
      rbind (read_list rd n r1) fun xs r2 =>
        some (x :: xs, r2)

def read_vec {α : Type} (rd : List Nat → Option (α × List Nat))
    (bytes : List Nat) : Option (List α × List Nat) :=
  rbind (read_varint bytes) fun n r1 => read_list rd n r1

/-- Port entry (build_cache.cpp:124-130 / 252-265). -/
def write_port (p : PortDecl) : List Nat :=
  write_string p.name ++ write_byte p.direction ++
    write_string p.type_text ++ write_pos p.pos

def read_port (bytes : List Nat) : Option (PortDecl × List Nat) :=
  rbind (read_string bytes) fun name r1 =>
    rbind (read_byte r1) fun dir r2 =>
      rbind (read_string r2) fun ty r3 =>
        rbind (read_pos r3) fun pos r4 =>
          some (⟨name, dir, ty, pos⟩, r4)

/-- Param entry (build_cache.cpp:132-139 / 267-277). -/
def write_param (p : ParamDecl) : List Nat :=
  write_string p.name ++ write_string p.default_text ++
    write_bool p.is_localparam ++ write_pos p.pos

def read_param (bytes : List Nat) : Option (ParamDecl × List Nat) :=
  rbind (read_string bytes) fun name r1 =>
    rbind (read_string r1) fun dft r2 =>
      rbind (read_bool r2) fun lp r3 =>
        rbind (read_pos r3) fun pos r4 =>
          some (⟨name, dft, lp, pos⟩, r4)

/-- Instantiation entry (build_cache.cpp:141-148 / 279-289). -/
def write_inst (i : Instantiation) : List Nat :=
  write_string i.module_name ++ write_string i.instance_name ++
    write_bool i.is_parameterized ++ write_pos i.pos

def read_inst (bytes : List Nat) : Option (Instantiation × List Nat) :=
  rbind (read_string bytes) fun mn r1 =>
    rbind (read_string r1) fun inn r2 =>
      rbind (read_bool r2) fun ip r3 =>
        rbind (read_pos r3) fun pos r4 =>
          some (⟨mn, inn, ip, pos⟩, r4)

/-- Import entry (build_cache.cpp:150-157 / 291-301). -/
def write_import (i : ImportDecl) : List Nat :=
  write_string i.package_name ++ write_string i.symbol ++
    write_bool i.is_wildcard ++ write_pos i.pos

def read_import (bytes : List Nat) : Option (ImportDecl × List Nat) :=
  rbind (read_string bytes) fun pn r1 =>
    rbind (read_string r1) fun sy r2 =>
      rbind (read_bool r2) fun wc r3 =>
        rbind (read_pos r3) fun pos r4 =>
          some (⟨pn, sy, wc, pos⟩, r4)

/-- Assignment entry (build_cache.cpp:164-169 / 314-323). -/
def write_assign (a : Assignment) : List Nat :=
  write_bool a.is_blocking ++ write_string a.target ++ write_pos a.pos

def read_assign (bytes : List Nat) : Option (Assignment × List Nat) :=
  rbind (read_bool bytes) fun bl r1 =>
    rbind (read_string r1) fun tg r2 =>
      rbind (read_pos r2) fun pos r3 =>
        some (⟨bl, tg, pos⟩, r3)

/-- Always-block entry (build_cache.cpp:159-171 / 303-326). -/
def write_always (b : AlwaysBlock) : List Nat :=
  write_byte b.kind ++ write_string b.label ++
    write_vec write_assign b.assignments ++ write_pos b.pos

def read_always (bytes : List Nat) : Option (AlwaysBlock × List Nat) :=
  rbind (read_byte bytes) fun k r1 =>
    rbind (read_string r1) fun lb r2 =>
      rbind (read_vec read_assign r2) fun asgn r3 =>
        rbind (read_pos r3) fun pos r4 =>
          some (⟨k, lb, asgn, pos⟩, r4)

/-- Case-statement entry (build_cache.cpp:173-181 / 328-341). -/
def write_case (c : CaseStatement) : List Nat :=
  write_byte c.kind ++ write_bool c.has_default ++ write_bool c.is_unique ++
    write_bool c.is_priority ++ write_pos c.pos

def read_case (bytes : List Nat) : Option (CaseStatement × List Nat) :=
  rbind (read_byte bytes) fun k r1 =>
    rbind (read_bool r1) fun hd r2 =>
      rbind (read_bool r2) fun iu r3 =>
        rbind (read_bool r3) fun ip r4 =>
          rbind (read_pos r4) fun pos r5 =>
            some (⟨k, hd, iu, ip, pos⟩, r5)

/-- Signal entry (build_cache.cpp:183-189 / 343-352). -/
def write_signal (s : SignalDecl) : List Nat :=
  write_string s.name ++ write_string s.type_text ++ write_pos s.pos

def read_signal (bytes : List Nat) : Option (SignalDecl × List Nat) :=
  rbind (read_string bytes) fun name r1 =>
    rbind (read_string r1) fun ty r2 =>
      rbind (read_pos r2) fun pos r3 =>
        some (⟨name, ty, pos⟩, r3)

/-- Generate-block entry (build_cache.cpp:191-197 / 354-363). -/
def write_gen (g : GenerateBlock) : List Nat :=
  write_string g.label ++ write_bool g.has_label ++ write_pos g.pos

def read_gen (bytes : List Nat) : Option (GenerateBlock × List Nat) :=
  rbind (read_string bytes) fun lb r1 =>
    rbind (read_bool r1) fun hl r2 =>
      rbind (read_pos r2) fun pos r3 =>
        some (⟨lb, hl, pos⟩, r3)

/-- Labeled-block entry (build_cache.cpp:199-206 / 365-375). -/
def write_labeled (l : LabeledBlock) : List Nat :=
  write_string l.begin_label ++ write_string l.end_label ++
    write_bool l.labels_match ++ write_pos l.pos

def read_labeled (bytes : List Nat) : Option (LabeledBlock × List Nat) :=
  rbind (read_string bytes) fun bl r1 =>
    rbind (read_string r1) fun el r2 =>
      rbind (read_bool r2) fun lm r3 =>
        rbind (read_pos r3) fun pos r4 =>
          some (⟨bl, el, lm, pos⟩, r4)

/-- Design-unit entry (build_cache.cpp:115-210 / 238-380). -/
def write_unit (u : DesignUnit) : List Nat :=
  write_byte u.kind ++ write_string u.name ++ write_int u.start_line ++
    write_int u.end_line ++ write_int u.depth ++ write_bool u.has_defparam ++
    write_vec write_port u.ports ++ write_vec write_param u.params ++
    write_vec write_inst u.instantiations ++
    write_vec write_import u.imports ++
    write_vec write_always u.always_blocks ++
    write_vec write_case u.case_statements ++
    write_vec write_signal u.signals ++
    write_vec write_gen u.generate_blocks ++
    write_vec write_labeled u.labeled_blocks ++ write_pos u.pos

def read_unit (bytes : List Nat) : Option (DesignUnit × List Nat) :=
  rbind (read_byte bytes) fun k r1 =>
    rbind (read_string r1) fun name r2 =>
      rbind (read_int r2) fun sl r3 =>
        rbind (read_int r3) fun el r4 =>
          rbind (read_int r4) fun dp r5 =>
            rbind (read_bool r5) fun hdp r6 =>
              rbind (read_vec read_port r6) fun ports r7 =>
                rbind (read_vec read_param r7) fun params r8 =>
                  rbind (read_vec read_inst r8) fun insts r9 =>
                    rbind (read_vec read_import r9) fun imps r10 =>
                      rbind (read_vec read_always r10) fun abs2 r11 =>
                        rbind (read_vec read_case r11) fun cs r12 =>
                          rbind (read_vec read_signal r12) fun sigs r13 =>
                            rbind (read_vec read_gen r13) fun gens r14 =>
                              rbind (read_vec read_labeled r14) fun lbs r15 =>
                                rbind (read_pos r15) fun pos r16 =>
                                  some (⟨k, name, sl, el, dp, ports, params,
                                    insts, imps, abs2, cs, sigs, gens, lbs,
                                    hdp, pos⟩, r16)

/-- Diagnostic entry (build_cache.cpp:213-219 / 382-393): unlike source
positions, the diagnostic's `file` IS serialized. -/
def write_diag (d : Diagnostic) : List Nat :=
  write_string d.message ++ write_string d.file ++
    write_int d.line ++ write_int d.col

def read_diag (bytes : List Nat) : Option (Diagnostic × List Nat) :=
  rbind (read_string bytes) fun msg r1 =>
    rbind (read_string r1) fun fl r2 =>
      rbind (read_int r2) fun ln r3 =>
        rbind (read_int r3) fun cl r4 =>
          some (⟨msg, fl, ln, cl⟩, r4)

/-- `MAGIC` = "LPR\x01" (build_cache.cpp:19). -/
def MAGIC : List Nat := [76, 80, 82, 1]

/-- `serialize_parse_result` (build_cache.cpp:106-222). -/
def serialize_parse_result (pr : ParseResult) : List Nat :=
  MAGIC ++ write_vec write_unit pr.units ++ write_vec write_diag pr.diagnostics

/-- `deserialize_parse_result` (build_cache.cpp:224-396): a missing or
wrong magic prefix is a Checksum error, any truncation in the body is
an IO error; trailing bytes after the diagnostics are ignored. -/
def deserialize_parse_result (data : List Nat) : LoomResult ParseResult :=
  if data.take 4 = MAGIC then
    match rbind (read_vec read_unit (data.drop 4)) (fun units r1 =>
        rbind (read_vec read_diag r1) fun diags r2 =>
          some (⟨units, diags⟩, r2)) with
    | some (pr, _) => .ok pr
    | none => .error ⟨.Io⟩
  else .error ⟨.Checksum⟩

/-- The effect of a serialization round trip on a stored position: the
`file` field comes back empty. -/
def eraseFile (p : SourcePos) : SourcePos := ⟨[], p.line, p.col⟩

def erasePort (p : PortDecl) : PortDecl := { p with pos := eraseFile p.pos }

def eraseParam (p : ParamDecl) : ParamDecl := { p with pos := eraseFile p.pos }

def eraseInst (i : Instantiation) : Instantiation :=
  { i with pos := eraseFile i.pos }

def eraseImport (i : ImportDecl) : ImportDecl := { i with pos := eraseFile i.pos }

def eraseAssign (a : Assignment) : Assignment := { a with pos := eraseFile a.pos }

def eraseAlways (b : AlwaysBlock) : AlwaysBlock :=
  { b with assignments := b.assignments.map eraseAssign,
           pos := eraseFile b.pos }

def eraseCase (c : CaseStatement) : CaseStatement :=
  { c with pos := eraseFile c.pos }

def eraseSignal (s : SignalDecl) : SignalDecl := { s with pos := eraseFile s.pos }

def eraseGen (g : GenerateBlock) : GenerateBlock := { g with pos := eraseFile g.pos }

def eraseLabeled (l : LabeledBlock) : LabeledBlock :=
  { l with pos := eraseFile l.pos }

def eraseUnit (u : DesignUnit) : DesignUnit :=
  { u with ports := u.ports.map erasePort,
           params := u.params.map eraseParam,
           instantiations := u.instantiations.map eraseInst,
           imports := u.imports.map eraseImport,
           always_blocks := u.always_blocks.map eraseAlways,
           case_statements := u.case_statements.map eraseCase,
           signals := u.signals.map eraseSignal,
           generate_blocks := u.generate_blocks.map eraseGen,
           labeled_blocks := u.labeled_blocks.map eraseLabeled,
           pos := eraseFile u.pos }

def eraseParseResult (pr : ParseResult) : ParseResult :=
  { pr with units := pr.units.map eraseUnit }

/-- C++-representability: byte strings hold bytes and every size fits
`size_t`; `int` fields are 32-bit values; enum kind bytes fit a byte. -/
abbrev ValidStr (s : List Nat) : Prop := s.length < 2 ^ 64 ∧ ∀ b ∈ s, b < 256

abbrev ValidInt (v : Int) : Prop := -(2 ^ 31) ≤ v ∧ v < 2 ^ 31

abbrev ValidPos (p : SourcePos) : Prop := ValidInt p.line ∧ ValidInt p.col

abbrev ValidPort (p : PortDecl) : Prop :=
  ValidStr p.name ∧ p.direction < 256 ∧ ValidStr p.type_text ∧ ValidPos p.pos

abbrev ValidParam (p : ParamDecl) : Prop :=
  ValidStr p.name ∧ ValidStr p.default_text ∧ ValidPos p.pos

abbrev ValidInst (i : Instantiation) : Prop :=
  ValidStr i.module_name ∧ ValidStr i.instance_name ∧ ValidPos i.pos

abbrev ValidImport (i : ImportDecl) : Prop :=
  ValidStr i.package_name ∧ ValidStr i.symbol ∧ ValidPos i.pos

abbrev ValidAssign (a : Assignment) : Prop :=
  ValidStr a.target ∧ ValidPos a.pos

abbrev ValidAlways (b : AlwaysBlock) : Prop :=
  b.kind < 256 ∧ ValidStr b.label ∧ b.assignments.length < 2 ^ 64 ∧
    (∀ a ∈ b.assignments, ValidAssign a) ∧ ValidPos b.pos

abbrev ValidCase (c : CaseStatement) : Prop := c.kind < 256 ∧ ValidPos c.pos

abbrev ValidSignal (s : SignalDecl) : Prop :=
  ValidStr s.name ∧ ValidStr s.type_text ∧ ValidPos s.pos

abbrev ValidGen (g : GenerateBlock) : Prop := ValidStr g.label ∧ ValidPos g.pos

abbrev ValidLabeled (l : LabeledBlock) : Prop :=
  ValidStr l.begin_label ∧ ValidStr l.end_label ∧ ValidPos l.pos

abbrev ValidUnit (u : DesignUnit) : Prop :=
  u.kind < 256 ∧ ValidStr u.name ∧ ValidInt u.start_line ∧
  ValidInt u.end_line ∧ ValidInt u.depth ∧
  u.ports.length < 2 ^ 64 ∧ (∀ x ∈ u.ports, ValidPort x) ∧
  u.params.length < 2 ^ 64 ∧ (∀ x ∈ u.params, ValidParam x) ∧
  u.instantiations.length < 2 ^ 64 ∧ (∀ x ∈ u.instantiations, ValidInst x) ∧
  u.imports.length < 2 ^ 64 ∧ (∀ x ∈ u.imports, ValidImport x) ∧
  u.always_blocks.length < 2 ^ 64 ∧ (∀ x ∈ u.always_blocks, ValidAlways x) ∧
  u.case_statements.length < 2 ^ 64 ∧ (∀ x ∈ u.case_statements, ValidCase x) ∧
  u.signals.length < 2 ^ 64 ∧ (∀ x ∈ u.signals, ValidSignal x) ∧
  u.generate_blocks.length < 2 ^ 64 ∧
  (∀ x ∈ u.generate_blocks, ValidGen x) ∧
  u.labeled_blocks.length < 2 ^ 64 ∧
  (∀ x ∈ u.labeled_blocks, ValidLabeled x) ∧ ValidPos u.pos

abbrev ValidDiag (d : Diagnostic) : Prop :=
  ValidStr d.message ∧ ValidStr d.file ∧ ValidInt d.line ∧ ValidInt d.col

abbrev ValidPR (pr : ParseResult) : Prop :=
  pr.units.length < 2 ^ 64 ∧ (∀ u ∈ pr.units, ValidUnit u) ∧
  pr.diagnostics.length < 2 ^ 64 ∧ (∀ d ∈ pr.diagnostics, ValidDiag d)

instance (s : List Nat) : Decidable (ValidStr s) := by
  unfold ValidStr
  infer_instance

instance (v : Int) : Decidable (ValidInt v) := by
  unfold ValidInt
  infer_instance

instance (p : SourcePos) : Decidable (ValidPos p) := by
  unfold ValidPos
  infer_instance

instance (p : PortDecl) : Decidable (ValidPort p) := by
  unfold ValidPort
  infer_instance

instance (p : ParamDecl) : Decidable (ValidParam p) := by
  unfold ValidParam
  infer_instance

instance (i : Instantiation) : Decidable (ValidInst i) := by
  unfold ValidInst
  infer_instance

instance (i : ImportDecl) : Decidable (ValidImport i) := by
  unfold ValidImport
  infer_instance

instance (a : Assignment) : Decidable (ValidAssign a) := by
  unfold ValidAssign
  infer_instance

instance (b : AlwaysBlock) : Decidable (ValidAlways b) := by
  unfold ValidAlways
  infer_instance

instance (c : CaseStatement) : Decidable (ValidCase c) := by
  unfold ValidCase
  infer_instance

instance (s : SignalDecl) : Decidable (ValidSignal s) := by
  unfold ValidSignal
  infer_instance

instance (g : GenerateBlock) : Decidable (ValidGen g) := by
  unfold ValidGen
  infer_instance

instance (l : LabeledBlock) : Decidable (ValidLabeled l) := by
  unfold ValidLabeled
  infer_instance

instance (u : DesignUnit) : Decidable (ValidUnit u) := by
  unfold ValidUnit
  infer_instance

instance (d : Diagnostic) : Decidable (ValidDiag d) := by
  unfold ValidDiag
  infer_instance

instance (pr : ParseResult) : Decidable (ValidPR pr) := by
  unfold ValidPR
  infer_instance

theorem rbind_some {α β : Type} (a : α) (r : List Nat)
    (f : α → List Nat → Option (β × List Nat)) :
    rbind (some (a, r)) f = f a r := rfl

theorem readVarintAux_cons (b : Nat) (rest : List Nat) (shift acc : Nat) :
    readVarintAux (b :: rest) shift acc =
      if b < 128 then some (acc + b % 128 * 2 ^ shift, rest)
      else if shift + 7 ≥ 64 then none
      else readVarintAux rest (shift + 7) (acc + b % 128 * 2 ^ shift) := rfl

/-- Reading back a varint written with enough fuel from any aligned
shift state recovers the value: the writer emits base-128 digits
little-endian, the reader reassembles them at increasing shifts. -/
theorem readVarint_varintAux (fuel : Nat) :
    ∀ (val shift acc : Nat) (rest : List Nat),
      val < 128 ^ fuel →
      shift + 7 * fuel ≤ 70 →
      readVarintAux (varintAux fuel val ++ rest) shift acc =
        some (acc + val * 2 ^ shift, rest) := by
  induction fuel with
  | zero =>
    intro val shift acc rest hval hshift
    have h0 : val = 0 := by omega
    subst h0
    simp [varintAux, readVarintAux]
  | succ fuel ih =>
    intro val shift acc rest hval hshift
    by_cases hv : val < 128
    · rw [show varintAux (fuel + 1) val = [val] from by
        simp [varintAux, hv]]
      rw [List.cons_append, List.nil_append, readVarintAux_cons, if_pos hv,
        Nat.mod_eq_of_lt hv]
    · have hfuel : 1 ≤ fuel := by
        by_contra h0
        have hf0 : fuel = 0 := by omega
        subst hf0
        rw [pow_one] at hval
        omega
      have hb : ¬ (val % 128 + 128 < 128) := by omega
      have hsh : ¬ (shift + 7 ≥ 64) := by omega
      rw [show varintAux (fuel + 1) val =
          (val % 128 + 128) :: varintAux fuel (val / 128) from by
        simp [varintAux, hv]]
      rw [List.cons_append, readVarintAux_cons, if_neg hb, if_neg hsh]
      rw [ih (val / 128) (shift + 7) (acc + (val % 128 + 128) % 128 * 2 ^ shift)
        rest ?_ ?_]
      · have h128 : (val % 128 + 128) % 128 = val % 128 := by omega
        have hps : (2 : Nat) ^ (shift + 7) = 2 ^ shift * 128 := by
          rw [pow_add]
          norm_num
        rw [h128, hps]
        have hdm := Nat.div_add_mod val 128
        have harith : acc + val % 128 * 2 ^ shift +
            val / 128 * (2 ^ shift * 128) = acc + val * 2 ^ shift := by
          calc acc + val % 128 * 2 ^ shift + val / 128 * (2 ^ shift * 128)
              = acc + (128 * (val / 128) + val % 128) * 2 ^ shift := by ring
            _ = acc + val * 2 ^ shift := by rw [hdm]
        rw [harith]
      · have hv2 : val < 128 ^ fuel * 128 := by
          rw [← pow_succ]
          exact hval
        exact (Nat.div_lt_iff_lt_mul (by norm_num)).mpr hv2
      · omega

theorem read_varint_rt (val : Nat) (h : val < 2 ^ 64) (rest : List Nat) :
    read_varint (write_varint val ++ rest) = some (val, rest) := by
  unfold read_varint write_varint
  rw [readVarint_varintAux 10 val 0 0 rest (lt_of_lt_of_le h (by norm_num))
    (by norm_num)]
  norm_num

theorem read_string_rt (s : List Nat) (h : s.length < 2 ^ 64)
    (rest : List Nat) :
    read_string (write_string s ++ rest) = some (s, rest) := by
  unfold read_string write_string
  rw [List.append_assoc, read_varint_rt s.length h (s ++ rest)]
  simp only [rbind_some]
  rw [if_pos (by simp), List.take_left, List.drop_left]

theorem read_bool_rt (b : Bool) (rest : List Nat) :
    read_bool (write_bool b ++ rest) = some (b, rest) := by
  cases b <;> rfl

theorem read_byte_rt (v : Nat) (rest : List Nat) :
    read_byte (write_byte v ++ rest) = some (v, rest) := rfl

theorem u32_int_rt (v : Int) (h : ValidInt v) :
    u32ToInt (v % 2 ^ 32).toNat = v := by
  obtain ⟨h1, h2⟩ := h
  unfold u32ToInt
  dsimp only
  split <;> omega

theorem read_int_rt (v : Int) (h : ValidInt v) (rest : List Nat) :
    read_int (write_int v ++ rest) = some (v, rest) := by
  unfold read_int write_int
  rw [read_varint_rt _ (by omega) rest]
  simp only [rbind_some]
  rw [u32_int_rt v h]

theorem read_pos_rt (p : SourcePos) (h : ValidPos p) (rest : List Nat) :
    read_pos (write_pos p ++ rest) = some (eraseFile p, rest) := by
  obtain ⟨h1, h2⟩ := h
  unfold read_pos write_pos
  rw [List.append_assoc, read_int_rt p.line h1]
  simp only [rbind_some]
  rw [read_int_rt p.col h2]
  simp only [rbind_some]
  rfl

/-- Reading back `n` elements written consecutively, when each element
round-trips to its erased form. -/
theorem read_list_rt {α : Type} (wr : α → List Nat)
    (rd : List Nat → Option (α × List Nat)) (f : α → α) (P : α → Prop)
    (hitem : ∀ x, P x → ∀ rest, rd (wr x ++ rest) = some (f x, rest)) :
    ∀ (xs : List α), (∀ x ∈ xs, P x) → ∀ (rest : List Nat),
      read_list rd xs.length ((xs.map wr).flatten ++ rest) =
        some (xs.map f, rest) := by
  intro xs
  induction xs with
  | nil =>
    intro _ rest
    simp [read_list]
  | cons x xs ih =>
    intro hall rest
    simp only [List.map_cons, List.flatten_cons, List.length_cons,
      List.append_assoc]
    rw [show read_list rd (xs.length + 1)
        (wr x ++ ((xs.map wr).flatten ++ rest)) =
        rbind (rd (wr x ++ ((xs.map wr).flatten ++ rest))) (fun y r1 =>
          rbind (read_list rd xs.length r1) fun ys r2 => some (y :: ys, r2))
      from rfl]
    rw [hitem x (hall x (List.mem_cons_self x xs)) _]
    simp only [rbind_some]
    rw [ih (fun y hy => hall y (List.mem_cons_of_mem x hy)) rest]
    simp only [rbind_some]

theorem read_vec_rt {α : Type} (wr : α → List Nat)
    (rd : List Nat → Option (α × List Nat)) (f : α → α) (P : α → Prop)
    (hitem : ∀ x, P x → ∀ rest, rd (wr x ++ rest) = some (f x, rest))
    (xs : List α) (hlen : xs.length < 2 ^ 64) (hall : ∀ x ∈ xs, P x)
    (rest : List Nat) :
    read_vec rd (write_vec wr xs ++ rest) = some (xs.map f, rest) := by
  unfold read_vec write_vec
  rw [List.append_assoc, read_varint_rt xs.length hlen]
  simp only [rbind_some]
  exact read_list_rt wr rd f P hitem xs hall rest

theorem read_port_rt (p : PortDecl) (h : ValidPort p) (rest : List Nat) :
    read_port (write_port p ++ rest) = some (erasePort p, rest) := by
  obtain ⟨h1, h2, h3, h4⟩ := h
  simp only [read_port, write_port, List.append_assoc, rbind_some,
    read_string_rt p.name h1.1, read_byte_rt,
    read_string_rt p.type_text h3.1, read_pos_rt p.pos h4]
  rfl

theorem read_param_rt (p : ParamDecl) (h : ValidParam p) (rest : List Nat) :
    read_param (write_param p ++ rest) = some (eraseParam p, rest) := by
  obtain ⟨h1, h2, h3⟩ := h
  simp only [read_param, write_param, List.append_assoc, rbind_some,
    read_string_rt p.name h1.1, read_string_rt p.default_text h2.1,
    read_bool_rt, read_pos_rt p.pos h3]
  rfl

theorem read_inst_rt (i : Instantiation) (h : ValidInst i) (rest : List Nat) :
    read_inst (write_inst i ++ rest) = some (eraseInst i, rest) := by
  obtain ⟨h1, h2, h3⟩ := h
  simp only [read_inst, write_inst, List.append_assoc, rbind_some,
    read_string_rt i.module_name h1.1, read_string_rt i.instance_name h2.1,
    read_bool_rt, read_pos_rt i.pos h3]
  rfl

theorem read_import_rt (i : ImportDecl) (h : ValidImport i) (rest : List Nat) :
    read_import (write_import i ++ rest) = some (eraseImport i, rest) := by
  obtain ⟨h1, h2, h3⟩ := h
  simp only [read_import, write_import, List.append_assoc, rbind_some,
    read_string_rt i.package_name h1.1, read_string_rt i.symbol h2.1,
    read_bool_rt, read_pos_rt i.pos h3]
  rfl

theorem read_assign_rt (a : Assignment) (h : ValidAssign a) (rest : List Nat) :
    read_assign (write_assign a ++ rest) = some (eraseAssign a, rest) := by
  obtain ⟨h1, h2⟩ := h
  simp only [read_assign, write_assign, List.append_assoc, rbind_some,
    read_bool_rt, read_string_rt a.target h1.1, read_pos_rt a.pos h2]
  rfl

theorem read_always_rt (b : AlwaysBlock) (h : ValidAlways b) (rest : List Nat) :
    read_always (write_always b ++ rest) = some (eraseAlways b, rest) := by
  obtain ⟨h1, h2, h3, h4, h5⟩ := h
  simp only [read_always, write_always, List.append_assoc, rbind_some,
    read_byte_rt, read_string_rt b.label h2.1,
    read_vec_rt write_assign read_assign eraseAssign ValidAssign
      read_assign_rt b.assignments h3 h4,
    read_pos_rt b.pos h5]
  rfl

theorem read_case_rt (c : CaseStatement) (h : ValidCase c) (rest : List Nat) :
    read_case (write_case c ++ rest) = some (eraseCase c, rest) := by
  obtain ⟨h1, h2⟩ := h
  simp only [read_case, write_case, List.append_assoc, rbind_some,
    read_byte_rt, read_bool_rt, read_pos_rt c.pos h2]
  rfl

theorem read_signal_rt (s : SignalDecl) (h : ValidSignal s) (rest : List Nat) :
    read_signal (write_signal s ++ rest) = some (eraseSignal s, rest) := by
  obtain ⟨h1, h2, h3⟩ := h
  simp only [read_signal, write_signal, List.append_assoc, rbind_some,
    read_string_rt s.name h1.1, read_string_rt s.type_text h2.1,
    read_pos_rt s.pos h3]
  rfl

theorem read_gen_rt (g : GenerateBlock) (h : ValidGen g) (rest : List Nat) :
    read_gen (write_gen g ++ rest) = some (eraseGen g, rest) := by
  obtain ⟨h1, h2⟩ := h
  simp only [read_gen, write_gen, List.append_assoc, rbind_some,
    read_string_rt g.label h1.1, read_bool_rt, read_pos_rt g.pos h2]
  rfl

theorem read_labeled_rt (l : LabeledBlock) (h : ValidLabeled l)
    (rest : List Nat) :
    read_labeled (write_labeled l ++ rest) = some (eraseLabeled l, rest) := by
  obtain ⟨h1, h2, h3⟩ := h
  simp only [read_labeled, write_labeled, List.append_assoc, rbind_some,
    read_string_rt l.begin_label h1.1, read_string_rt l.end_label h2.1,
    read_bool_rt, read_pos_rt l.pos h3]
  rfl

theorem read_diag_rt (d : Diagnostic) (h : ValidDiag d) (rest : List Nat) :
    read_diag (write_diag d ++ rest) = some (d, rest) := by
  obtain ⟨h1, h2, h3, h4⟩ := h
  simp only [read_diag, write_diag, List.append_assoc, rbind_some,
    read_string_rt d.message h1.1, read_string_rt d.file h2.1,
    read_int_rt d.line h3, read_int_rt d.col h4]

theorem read_unit_rt (u : DesignUnit) (h : ValidUnit u) (rest : List Nat) :
    read_unit (write_unit u ++ rest) = some (eraseUnit u, rest) := by
  obtain ⟨hk, hname, h1i, h2i, h3i, hp1, hp2, hm1, hm2, hi1, hi2, hq1, hq2,
    ha1, ha2, hc1, hc2, hs1, hs2, hg1, hg2, hl1, hl2, hpp⟩ := h
  simp only [read_unit, write_unit, List.append_assoc, rbind_some,
    read_byte_rt, read_string_rt u.name hname.1,
    read_int_rt u.start_line h1i, read_int_rt u.end_line h2i,
    read_int_rt u.depth h3i, read_bool_rt,
    read_vec_rt write_port read_port erasePort ValidPort
      read_port_rt u.ports hp1 hp2,
    read_vec_rt write_param read_param eraseParam ValidParam
      read_param_rt u.params hm1 hm2,
    read_vec_rt write_inst read_inst eraseInst ValidInst
      read_inst_rt u.instantiations hi1 hi2,
    read_vec_rt write_import read_import eraseImport ValidImport
      read_import_rt u.imports hq1 hq2,
    read_vec_rt write_always read_always eraseAlways ValidAlways
      read_always_rt u.always_blocks ha1 ha2,
    read_vec_rt write_case read_case eraseCase ValidCase
      read_case_rt u.case_statements hc1 hc2,
    read_vec_rt write_signal read_signal eraseSignal ValidSignal
      read_signal_rt u.signals hs1 hs2,
    read_vec_rt write_gen read_gen eraseGen ValidGen
      read_gen_rt u.generate_blocks hg1 hg2,
    read_vec_rt write_labeled read_labeled eraseLabeled ValidLabeled
      read_labeled_rt u.labeled_blocks hl1 hl2,
    read_pos_rt u.pos hpp]
  rfl

/-- The body of the round trip: serialize then deserialize returns
success with every stored position's `file` emptied and everything else
intact. -/
theorem deserialize_serialize (pr : ParseResult) (h : ValidPR pr) :
    deserialize_parse_result (serialize_parse_result pr) =
      .ok (eraseParseResult pr) := by
  obtain ⟨hul, hua, hdl, hda⟩ := h
  unfold deserialize_parse_result serialize_parse_result
  rw [List.append_assoc]
  rw [if_pos (List.take_left' (by rfl))]
  rw [List.drop_left' (by rfl)]
  rw [show write_vec write_diag pr.diagnostics =
      write_vec write_diag pr.diagnostics ++ [] from (List.append_nil _).symm]
  rw [read_vec_rt write_unit read_unit eraseUnit ValidUnit
    read_unit_rt pr.units hul hua]
  simp only [rbind_some]
  rw [read_vec_rt write_diag read_diag id ValidDiag
    read_diag_rt pr.diagnostics hdl hda]
  simp only [rbind_some]
  simp [eraseParseResult, List.map_id]

/-- A `ParseResult` whose single unit carries a nonempty source file in
its position: the input of the C4 round-trip counterexample. -/
def samplePR : ParseResult :=
  ⟨[⟨0, [109], 1, 2, 0, [], [], [], [], [], [], [], [], [], false,
     ⟨[120], 3, 7⟩⟩], []⟩

/-- C4, counterexample: the round trip is NOT the identity — a unit
whose position stores the file "x" deserializes with that file field
emptied, because `ser::write_pos` never serializes `file`. -/
theorem c4_counterexample :
    deserialize_parse_result (serialize_parse_result samplePR) =
      .ok (eraseParseResult samplePR) ∧
    eraseParseResult samplePR ≠ samplePR :=
  ⟨rfl, by decide⟩

/-- C4 (amended): for every C++-representable ParseResult,
`deserialize_parse_result (serialize_parse_result x)` succeeds and
returns `x` with the `file` field of every stored source position reset
to the empty string (diagnostics keep their file); and deserializing
any blob whose first four bytes are not the magic `'L' 'P' 'R' '\x01'`
yields a Checksum error. -/
theorem c4_amended :
    (∀ pr, ValidPR pr →
      deserialize_parse_result (serialize_parse_result pr) =
        .ok (eraseParseResult pr)) ∧
    (∀ data : List Nat, data.take 4 ≠ MAGIC →
      deserialize_parse_result data = .error ⟨.Checksum⟩) := by
  refine ⟨fun pr h => deserialize_serialize pr h, fun data h => ?_⟩
  unfold deserialize_parse_result
  rw [if_neg h]

theorem c4_witness :
    ValidPR samplePR ∧
    deserialize_parse_result (serialize_parse_result samplePR) =
      .ok (eraseParseResult samplePR) ∧
    ([0] : List Nat).take 4 ≠ MAGIC ∧
    deserialize_parse_result [0] = .error ⟨.Checksum⟩ :=
  ⟨by decide, c4_amended.1 samplePR (by decide), by decide,
    c4_amended.2 [0] (by decide)⟩

theorem c3_witness :
    Graph.WF ⟨[[1], []]⟩ ∧
    ((Graph.topological_sort ⟨[[1], []]⟩ = .error ⟨.Cycle⟩ ↔
        Graph.IsCyclic ⟨[[1], []]⟩) ∧
     (∀ order, Graph.topological_sort ⟨[[1], []]⟩ = .ok order →
        order.Perm (List.range 2) ∧
        ∀ u v, edgeRel [[1], []] u v → order.indexOf u < order.indexOf v)) :=
  ⟨by decide, c3_topological_sort ⟨[[1], []]⟩ (by decide)⟩

end Loom
